import Mathlib

/-!
Verification of the index-translation layer of TileDB-Segy.

The definitions below are a shallow embedding of `src/tiledb/segy/utils.py`
and `src/tilesegy/indexables.py`:
* `PySlice`, `PySlice.indices`, `rangeList`, `applySliceNat` model Python
  slices, CPython's `slice.indices`, `np.arange` and sequence slicing;
* `ensure_slice_int` / `ensure_slice_array` model the `ensure_slice`
  singledispatch family;
* `LabelIndexer` (with `getOne`, `getMany`, `getSlice`,
  `labelSliceToIndices`) models the two `LabelIndexer` classes (the body of
  `_label_slice_to_indices` in `utils.py` is textually identical to the
  corresponding lines of `indexables.LabelIndexer._get_slice`, so it is
  defined once and shared);
* `stGetMany` models `StructuredTraceIndexer._get_many`;
* `normalizeSlice` / `normalizeIndex` model
  `TiledbArrayWrapper._normalize_index`;
* `LinesModel` / `linesPlan` / `linesGetItem` model the index-resolution part
  of `Lines.__getitem__`.

Machine integers are modelled as `Int` / `Nat`; numpy arrays as lists plus
the dtype/shape data the code inspects; fallible code returns
`Except SliceErr`.
-/

deriving instance DecidableEq for Except

namespace TileDBSegy

/-- Error values raised by the embedded code.  Each constructor corresponds to
one `raise` site (or numpy-raised error) in the source. -/
inductive SliceErr where
  /-- `TypeError` from the `ensure_slice` / `__getitem__` dispatch defaults. -/
  | typeErr
  /-- `ValueError("Non-integer array cannot be converted to slice")`. -/
  | nonIntegerArray
  /-- `ValueError("{a.ndim}D array cannot be converted to slice")`. -/
  | multiDimArray
  /-- `ValueError("Empty array cannot be converted to slice")`. -/
  | emptyArray
  /-- `ValueError("Non-monotonically increasing or decreasing array ...")`. -/
  | nonMonotonic
  /-- `MultiSliceError("Array is not convertible to a single range")`. -/
  | multiSlice
  /-- `ValueError` from `slice.indices` when the step is zero. -/
  | zeroStep
  /-- `ValueError` from `slice.indices` when the length is negative. -/
  | negLength
  /-- `IndexError` from indexing `self._sorter` out of bounds. -/
  | indexError
  /-- `AssertionError` from `assert indices.size <= 1`. -/
  | assertionFailed
  /-- `ValueError("{label} is not in labels")`. -/
  | labelNotFound
  /-- `ValueError("labels should not contain duplicates: ...")`. -/
  | dupLabels
  /-- `ValueError("labels should be integers")`. -/
  | nonIntegerLabels
  /-- `ValueError` from numpy when reducing (`min`) a zero-size array. -/
  | zeroSizeReduction
  /-- `ValueError("{label_slice} has no overlap with labels")`. -/
  | emptyLabelRange
  /-- `ValueError("Label indices for {label_slice} is not a slice: ...")`. -/
  | nonUniformLabelRange
deriving DecidableEq, Repr

/-- A Python `slice` object: each of start/stop/step is `None` or an int. -/
structure PySlice where
  start : Option Int
  stop : Option Int
  step : Option Int
deriving DecidableEq, Repr

/-- CPython's clamping of an explicit slice bound against a sequence length
(the common part of `slice.indices`): negative values count from the end,
then the value is clamped into the valid range for the sign of the step. -/
def clampIndex (v : Option Int) (dflt : Int) (step len : Int) : Int :=
  match v with
  | none => dflt
  | some v₀ =>
    if (if v₀ < 0 then v₀ + len else v₀) < 0 then (if step < 0 then -1 else 0)
    else if len ≤ (if v₀ < 0 then v₀ + len else v₀) then (if step < 0 then len - 1 else len)
    else (if v₀ < 0 then v₀ + len else v₀)

/-- CPython's `slice.indices(len)`: resolves a slice against a sequence of
the given length, returning concrete `(start, stop, step)`. -/
def PySlice.indices (s : PySlice) (len : Int) : Except SliceErr (Int × Int × Int) :=
  if len < 0 then .error .negLength
  else if s.step.getD 1 = 0 then .error .zeroStep
  else
    .ok (clampIndex s.start (if s.step.getD 1 < 0 then len - 1 else 0) (s.step.getD 1) len,
         clampIndex s.stop (if s.step.getD 1 < 0 then -1 else len) (s.step.getD 1) len,
         s.step.getD 1)

/-- Number of elements of `np.arange(start, stop, step)` (integer case). -/
def rangeLen (start stop step : Int) : Nat :=
  if 0 < step then ((stop - start + step - 1) / step).toNat
  else if step < 0 then ((start - stop + (-step) - 1) / (-step)).toNat
  else 0

/-- `np.arange(start, stop, step)` for integers (also `range(start, stop, step)`). -/
def rangeList (start stop step : Int) : List Int :=
  (List.range (rangeLen start stop step)).map (fun i : Nat => start + step * (i : Int))

/-- The integers denoted by a slice whose bounds are all explicit, read as an
unbounded arithmetic enumeration (an omitted step counts as 1). -/
def sliceEnum (s : PySlice) : List Int :=
  rangeList (s.start.getD 0) (s.stop.getD 0) (s.step.getD 1)

/-- Error-propagating map over a list (the effect of a Python loop or
comprehension whose body may raise): stops at the first error. -/
def mapE {α β : Type} (f : α → Except SliceErr β) : List α → Except SliceErr (List β)
  | [] => .ok []
  | a :: l =>
    match f a with
    | .error er => .error er
    | .ok b =>
      match mapE f l with
      | .error er => .error er
      | .ok bs => .ok (b :: bs)

/-- Python slicing of a sequence of naturals (`seq[s]`): resolve the slice
with `PySlice.indices`, then gather the enumerated positions. -/
def applySliceNat (l : List Nat) (s : PySlice) : Except SliceErr (List Nat) :=
  match s.indices (Int.ofNat l.length) with
  | .error er => .error er
  | .ok (b, e, st) => .ok ((rangeList b e st).map (fun i => l.getD i.toNat 0))

/-! ### `ensure_slice` (utils.py) -/

/-- A numpy integer-or-not array: the dtype flag, the shape tuple (empty for a
0-D array) and the flattened data, which is all `ensure_slice` inspects. -/
structure NdArray where
  dtypeInt : Bool
  shape : List Nat
  data : List Int
deriving DecidableEq, Repr

/-- Consecutive differences `a[1:] - a[:-1]`. -/
def diffs (l : List Int) : List Int :=
  (l.zip l.tail).map (fun p => p.2 - p.1)

/-- `ensure_slice` registered on `int` / `np.integer`: `slice(i, i + 1)`
(note: the step of the constructed slice is `None`, not 1). -/
def ensure_slice_int (i : Int) : PySlice :=
  ⟨some i, some (i + 1), none⟩

/-- `ensure_slice` registered on `np.ndarray`. -/
def ensure_slice_array (a : NdArray) : Except SliceErr PySlice :=
  if ¬ a.dtypeInt then .error .nonIntegerArray
  else if 1 < a.shape.length then .error .multiDimArray
  else if a.shape.length = 1 ∧ a.data.length = 0 then .error .emptyArray
  else if a.shape.length = 0 ∨ a.data.length = 1 then .ok (ensure_slice_int (a.data.headD 0))
  else if ¬ ((diffs a.data).all (fun d => 0 < d) ∨ (diffs a.data).all (fun d => d < 0)) then
    .error .nonMonotonic
  else if 1 < (diffs a.data).dedup.length then .error .multiSlice
  else
    .ok ⟨some (a.data.headD 0),
         some (a.data.getLastD 0 + (if 0 < (diffs a.data).headD 0 then 1 else -1)),
         some ((diffs a.data).headD 0)⟩

/-! ### `TiledbArrayWrapper._normalize_index` (utils.py) -/

/-- Normalization of one slice: a `None` or positive step, or fully open
bounds, pass through; otherwise the bounds are rewritten to
`slice(stop + 1, start + 1, step)` (keeping the step's sign). -/
def normalizeSlice (s : PySlice) : PySlice :=
  match s.step with
  | none => s
  | some k =>
    if 0 < k then s
    else if s.start = none ∧ s.stop = none then s
    else ⟨s.stop.map (· + 1), s.start.map (· + 1), some k⟩

/-- A scalar-or-slice index, the element type of index tuples. -/
inductive AtomIndex where
  | scalar (i : Int)
  | slc (s : PySlice)
deriving DecidableEq, Repr

/-- A full logical index: scalar/slice, tuple of those, or ellipsis. -/
inductive PyIndex where
  | atom (a : AtomIndex)
  | tup (l : List AtomIndex)
  | ell
deriving DecidableEq, Repr

/-- `_normalize_index` on one scalar-or-slice: slices are normalized, every
other type falls through the singledispatch default unchanged. -/
def normalizeAtom : AtomIndex → AtomIndex
  | .scalar i => .scalar i
  | .slc s => .slc (normalizeSlice s)

/-- `_normalize_index`: tuples are normalized element-wise, ellipsis and
scalars pass through. -/
def normalizeIndex : PyIndex → PyIndex
  | .atom a => .atom (normalizeAtom a)
  | .tup l => .tup (l.map normalizeAtom)
  | .ell => .ell

/-! ### `LabelIndexer` (utils.py and its duplicate in indexables.py) -/

/-- `labels.min()`; partiality on the empty array is handled at the call
site (numpy raises on a zero-size reduction). -/
def intMin : List Int → Int
  | [] => 0
  | x :: xs => xs.foldl min x

/-- `labels.max()`. -/
def intMax : List Int → Int
  | [] => 0
  | x :: xs => xs.foldl max x

/-- `labels.argsort()`: the permutation of `0..len-1` that sorts `labels`. -/
def argsort (l : List Int) : List Nat :=
  (List.range l.length).insertionSort (fun i j => l.getD i 0 ≤ l.getD j 0)

/-- The state a `LabelIndexer` holds after a successful construction. -/
structure LabelIndexer where
  labels : List Int
  minLabel : Int
  maxLabel : Int
  sorter : List Nat
deriving DecidableEq, Repr

/-- `LabelIndexer.__init__`: reject a non-integer dtype, then duplicates,
then precompute `min`, `max + 1` and the sort permutation (numpy's `min`
raises on an empty array). -/
def LabelIndexer.init (dtypeInt : Bool) (labels : List Int) : Except SliceErr LabelIndexer :=
  if ¬ dtypeInt then .error .nonIntegerLabels
  else if labels.dedup.length ≠ labels.length then .error .dupLabels
  else if labels.length = 0 then .error .zeroSizeReduction
  else .ok ⟨labels, intMin labels, intMax labels + 1, argsort labels⟩

/-- The sorted view `labels[sorter]` that `searchsorted` searches in. -/
def LabelIndexer.sortedLabels (li : LabelIndexer) : List Int :=
  li.sorter.map (fun i => li.labels.getD i 0)

/-- `np.searchsorted(sorted, v)` with `side='left'`: the first position whose
element is not below `v`. -/
def searchsorted (sorted : List Int) (v : Int) : Nat :=
  (sorted.takeWhile (fun x => x < v)).length

/-- `LabelIndexer._get_one` (and the identical `__getitem__` default in
indexables.py): `np.flatnonzero(label == labels)`, assert at most one hit,
error when there is none, else the first hit. -/
def LabelIndexer.getOne (li : LabelIndexer) (v : Int) : Except SliceErr Nat :=
  let idxs := (List.range li.labels.length).filter (fun j => li.labels.getD j 0 = v)
  if 1 < idxs.length then .error .assertionFailed
  else
    match idxs with
    | [] => .error .labelNotFound
    | j :: _ => .ok j

/-- The bound clamping at the top of `_label_slice_to_indices` /
`_get_slice`: an increasing (or omitted) step clamps the start up to the
minimum label, a non-positive step clamps the stop up to `min - 1`. -/
def clampLabelSlice (minLabel : Int) (s : PySlice) : PySlice :=
  let incr : Bool := match s.step with | none => true | some k => 0 < k
  if incr then
    let start := match s.start with
      | none => minLabel
      | some v => if v < minLabel then minLabel else v
    ⟨some start, s.stop, s.step⟩
  else
    let stop := match s.stop with
      | none => minLabel - 1
      | some v => if v < minLabel - 1 then minLabel - 1 else v
    ⟨s.start, some stop, s.step⟩

/-- `_label_slice_to_indices` (utils.py), whose body also appears verbatim in
`indexables.LabelIndexer._get_slice`: clamp the bounds, resolve the label
range against `max_label`, search each candidate label through the sorter
(indexing the sorter out of bounds is an `IndexError`), and keep the
positions whose label actually equals the candidate. -/
def labelSliceToIndices (li : LabelIndexer) (s : PySlice) : Except SliceErr (List Nat) := do
  let s' := clampLabelSlice li.minLabel s
  let (b, e, st) ← s'.indices li.maxLabel
  let labelRange := rangeList b e st
  let rawIdx ← mapE (fun v =>
    match li.sorter.get? (searchsorted li.sortedLabels v) with
    | none => Except.error SliceErr.indexError
    | some i => Except.ok i) labelRange
  return ((labelRange.zip rawIdx).filter (fun vi => li.labels.getD vi.2 0 = vi.1)).map (·.2)

/-- `LabelIndexer._get_many` (utils.py): convert the resolved index array
with `ensure_slice`. -/
def LabelIndexer.getMany (li : LabelIndexer) (s : PySlice) : Except SliceErr PySlice := do
  let idxs ← labelSliceToIndices li s
  ensure_slice_array ⟨true, [idxs.length], idxs.map Int.ofNat⟩

/-- `step = indices[1] - indices[0] if len(indices) > 1 else 1`. -/
def idxStep (idxs : List Nat) : Int :=
  match idxs with
  | _ :: i1 :: _ => Int.ofNat i1 - Int.ofNat (idxs.headD 0)
  | _ => 1

/-- The slice `indexables.LabelIndexer._get_slice` builds from a nonempty
resolved ordinal list: `slice(indices[0], indices[-1] ± 1, step)`. -/
def idxSlice (idxs : List Nat) : PySlice :=
  ⟨some (Int.ofNat (idxs.headD 0)),
   some (Int.ofNat (idxs.getLastD 0) + (if 0 < idxStep idxs then 1 else -1)),
   some (idxStep idxs)⟩

/-- `indexables.LabelIndexer._get_slice`: resolve the ordinals, error when
none overlap, build `slice(start, stop, step)` from the first/second/last
ordinals, and error unless `np.arange` of that triple reproduces the
ordinals exactly. -/
def LabelIndexer.getSlice (li : LabelIndexer) (s : PySlice) : Except SliceErr PySlice :=
  match labelSliceToIndices li s with
  | .error er => .error er
  | .ok [] => .error .emptyLabelRange
  | .ok (i0 :: rest) =>
    if sliceEnum (idxSlice (i0 :: rest)) ≠ (i0 :: rest).map Int.ofNat then
      .error .nonUniformLabelRange
    else .ok (idxSlice (i0 :: rest))

/-! ### `StructuredTraceIndexer` (utils.py) -/

/-- `np.unravel_index` in C order: peel off one axis at a time. -/
def unravel : List Nat → Nat → List Nat
  | [], _ => []
  | _ :: ds, i => (i / ds.prod) :: unravel ds (i % ds.prod)

/-- Flat C-order index of a coordinate tuple (inverse of `unravel`). -/
def ravel : List Nat → List Nat → Nat
  | [], _ => 0
  | _ :: _, [] => 0
  | _ :: ds, x :: c => x * ds.prod + ravel ds c

/-- `np.unique`: the sorted list of distinct values. -/
def npUnique (l : List Nat) : List Nat :=
  (l.insertionSort (· ≤ ·)).dedup

/-- `itertools.product` of per-axis value lists, in axis-major (C) order. -/
def cartProd : List (List Nat) → List (List Nat)
  | [] => [[]]
  | u :: us => u.flatMap (fun x => (cartProd us).map (fun c => x :: c))

/-- The per-axis lists of coordinates (`np.unravel_index` of the selected
flat ordinals, one array per axis). -/
def unraveledAxes (shape : List Nat) (raveled : List Nat) : List (List Nat) :=
  (List.range shape.length).map
    (fun k => (raveled.map (unravel shape)).map (fun c => c.getD k 0))

/-- The per-axis unique coordinate sets (`tuple(map(np.unique, ...))`). -/
def uniqueAxes (shape : List Nat) (raveled : List Nat) : List (List Nat) :=
  (unraveledAxes shape raveled).map npUnique

/-- The post-reshape recipe: positions of the cartesian-product cells that
belong to the selected point set. -/
def stRecipe (shape : List Nat) (raveled : List Nat) : List Nat :=
  ((cartProd (uniqueAxes shape raveled)).enum.filter
    (fun p => decide (p.2 ∈ raveled.map (unravel shape)))).map (·.1)

/-- `StructuredTraceIndexer._get_many`: slice the flat ordinal range, unravel
each selected ordinal, take the per-axis unique value sets, convert each to
a slice (the bounding box), and list which positions of the cartesian
product of the unique sets are actually selected (the recipe). -/
def stGetMany (shape : List Nat) (s : PySlice) :
    Except SliceErr (List PySlice × List Nat) :=
  match applySliceNat (List.range shape.prod) s with
  | .error er => .error er
  | .ok raveled =>
    match mapE (fun u => ensure_slice_array ⟨true, [u.length], u.map Int.ofNat⟩)
        (uniqueAxes shape raveled) with
    | .error er => .error er
    | .ok bbox => .ok (bbox, stRecipe shape raveled)

/-- Reading the bounding box from an (abstractly flat) storage `A`: resolve
each per-axis slice against that axis's extent, and list the values of the
enclosed cells in C order — the "flattened bounding-box read". -/
def boxRead (A : Nat → Int) (shape : List Nat) (bbox : List PySlice) :
    Except SliceErr (List Int) :=
  match mapE (fun p => applySliceNat (List.range p.1) p.2) (shape.zip bbox) with
  | .error er => .error er
  | .ok sels => .ok ((cartProd sels).map (fun c => A (ravel shape c)))

/-! ### `Lines` (indexables.py) -/

/-- The construction-time state of a `Lines` accessor that its index
resolution consumes: the two indexers, the default offset and the axis
positions (`_labels_axis` comes from the schema, `_offsets_axis` is 1). -/
structure LinesModel where
  dimName : String
  labelIndexer : LabelIndexer
  offsetIndexer : LabelIndexer
  defaultOffset : Int
  labelsAxis : Nat
deriving DecidableEq, Repr

/-- `Lines.__init__`: build the two label indexers (either construction may
fail) and capture `offsets[0]` as the default offset. -/
def linesInit (dimName : String) (labels offsets : List Int) (labelsAxis : Nat) :
    Except SliceErr LinesModel :=
  match LabelIndexer.init true labels with
  | .error er => .error er
  | .ok li =>
    match LabelIndexer.init true offsets with
    | .error er => .error er
    | .ok oi => .ok ⟨dimName, li, oi, offsets.headD 0, labelsAxis⟩

/-- Dispatch of `indexables.LabelIndexer.__getitem__` on a scalar-or-slice:
a scalar resolves to one ordinal, a slice to an ordinal slice. -/
def LabelIndexer.getAtom (li : LabelIndexer) : AtomIndex → Except SliceErr (Sum Nat PySlice)
  | .scalar v => (li.getOne v).map Sum.inl
  | .slc s => (li.getSlice s).map Sum.inr

/-- The index-resolution part of `Lines.__getitem__` once the label and
offset sub-indices are known: resolve both, build the 4-slot composite
backend selector, and compute the axis-reconciliation plan (which axis to
swap to the front, and whether the depth special case swaps the last two
axes). -/
def linesPlan (ln : LinesModel) (labels offsets : AtomIndex) :
    Except SliceErr (List (Sum Nat PySlice) × Nat × Bool) := do
  let labelIdx ← ln.labelIndexer.getAtom labels
  let offsetIdx ← ln.offsetIndexer.getAtom offsets
  let multiLabels := labelIdx.isRight
  let multiOffsets := offsetIdx.isRight
  let la := ln.labelsAxis
  let oa := 1
  let comp := ((List.replicate 4 (Sum.inr (⟨none, none, none⟩ : PySlice))).set la labelIdx).set oa offsetIdx
  let major :=
    if multiLabels && multiOffsets then la
    else if multiLabels then la - (if oa < la then 1 else 0)
    else if multiOffsets then oa - (if la < oa then 1 else 0)
    else 0
  let sampleSwap := (decide (ln.dimName = "samples")) && multiLabels
  return (comp, major, sampleSwap)

/-- `Lines.__getitem__`: a tuple index destructures into `(labels, offsets)`;
any other index pairs with the default offset. -/
def linesGetItem (ln : LinesModel) :
    AtomIndex ⊕ (AtomIndex × AtomIndex) → Except SliceErr (List (Sum Nat PySlice) × Nat × Bool)
  | .inl a => linesPlan ln a (.scalar ln.defaultOffset)
  | .inr (a, b) => linesPlan ln a b

/-! ### Arithmetic-progression helper lemmas -/

/-- The arithmetic progression `a, a + d, …, a + d * (n - 1)`. -/
def apL (a d : Int) (n : Nat) : List Int :=
  (List.range n).map (fun i : Nat => a + d * (i : Int))

/-- A list of naturals is a single arithmetic progression (of nonzero step). -/
def IsAPIdx (l : List Nat) : Prop :=
  ∃ a d, d ≠ 0 ∧ l.map Int.ofNat = apL a d l.length

theorem apL_length (a d : Int) (n : Nat) : (apL a d n).length = n := by
  simp [apL]

theorem apL_one (a d : Int) : apL a d 1 = [a] := by
  unfold apL
  rw [show List.range 1 = [0] from rfl, List.map_cons, List.map_nil]
  simp

theorem apL_succ_cons (a d : Int) (n : Nat) : apL a d (n + 1) = a :: apL (a + d) d n := by
  unfold apL
  rw [List.range_succ_eq_map, List.map_cons, List.map_map]
  rw [show a + d * ((0 : Nat) : Int) = a by simp]
  congr 1
  apply List.map_congr_left
  intro i _
  simp only [Function.comp_apply, Nat.succ_eq_add_one]
  push_cast
  ring

theorem apL_headD (a d : Int) (n : Nat) (x : Int) : (apL a d (n + 1)).headD x = a := by
  rw [apL_succ_cons]; rfl

theorem apL_getLastD (d : Int) :
    ∀ (n : Nat) (a x : Int), (apL a d (n + 1)).getLastD x = a + d * n := by
  intro n
  induction n with
  | zero => intro a x; rw [apL_one]; simp
  | succ m ih =>
    intro a x
    rw [apL_succ_cons, List.getLastD_cons, ih (a + d) a]
    push_cast
    ring

theorem diffs_cons_cons (x y : Int) (t : List Int) :
    diffs (x :: y :: t) = (y - x) :: diffs (y :: t) := rfl

theorem diffs_apL (d : Int) : ∀ (n : Nat) (a : Int),
    diffs (apL a d (n + 1)) = List.replicate n d := by
  intro n
  induction n with
  | zero => intro a; rw [apL_one]; rfl
  | succ m ih =>
    intro a
    rw [apL_succ_cons, apL_succ_cons, diffs_cons_cons, ← apL_succ_cons, ih (a + d)]
    rw [List.replicate_succ]
    congr 1
    ring

theorem const_diffs_eq_apL (d : Int) :
    ∀ (l : List Int), l ≠ [] → (∀ x ∈ diffs l, x = d) →
      l = apL (l.headD 0) d l.length := by
  intro l
  induction l with
  | nil => intro h; exact absurd rfl h
  | cons x t ih =>
    intro _ hdiff
    cases t with
    | nil => simp [apL, List.range_succ]
    | cons y t' =>
      have hyx : y - x = d := hdiff _ (by rw [diffs_cons_cons]; exact List.mem_cons_self _ _)
      have ht : y :: t' = apL ((y :: t').headD 0) d (y :: t').length := by
        refine ih (by simp) ?_
        intro z hz
        exact hdiff z (by rw [diffs_cons_cons]; exact List.mem_cons_of_mem _ hz)
      simp only [List.headD_cons] at ht ⊢
      rw [List.length_cons, apL_succ_cons]
      have hxy : x + d = y := by omega
      rw [hxy, ← ht]

theorem dedup_replicate_succ (d : Int) (k : Nat) :
    (List.replicate (k + 1) d).dedup = [d] := by
  induction k with
  | zero => simp
  | succ m ih =>
    rw [List.replicate_succ, List.dedup_cons_of_mem (by simp [List.mem_replicate]), ih]

theorem rangeLen_ap (a d : Int) (n : Nat) (hd : d ≠ 0) :
    rangeLen a (a + d * n + (if 0 < d then 1 else -1)) d = n + 1 := by
  rcases lt_or_gt_of_ne hd with hneg | hpos
  · have h1 : ¬ (0 : Int) < d := by omega
    simp only [rangeLen, if_neg h1, if_pos hneg]
    rw [show a - (a + d * ↑n + -1) + -d - 1 = -d * (↑n + 1) by ring,
      Int.mul_ediv_cancel_left _ (show -d ≠ 0 by omega)]
    omega
  · simp only [rangeLen, if_pos hpos]
    rw [show a + d * ↑n + 1 - a + d - 1 = d * (↑n + 1) by ring,
      Int.mul_ediv_cancel_left _ hd]
    omega

theorem rangeList_of_len (b e st : Int) (n : Nat) (h : rangeLen b e st = n) :
    rangeList b e st = apL b st n := by
  unfold rangeList apL
  rw [h]

/-- Evaluation of `ensure_slice` on a nonempty-progression array: all the
guards pass and the resulting slice is built from the first element, the
last element ± 1, and the common difference. -/
theorem ensure_slice_array_apL (a d : Int) (n : Nat) (hn : 2 ≤ n) (hd : d ≠ 0) :
    ensure_slice_array ⟨true, [n], apL a d n⟩ =
      .ok ⟨some ((apL a d n).headD 0),
           some ((apL a d n).getLastD 0 + (if 0 < d then 1 else -1)), some d⟩ := by
  obtain ⟨m, rfl⟩ : ∃ m, n = m + 2 := ⟨n - 2, by omega⟩
  have hdiffs : diffs (apL a d (m + 2)) = List.replicate (m + 1) d := diffs_apL d (m + 1) a
  have hlen : (apL a d (m + 2)).length = m + 2 := apL_length a d (m + 2)
  have hmono : (List.replicate (m + 1) d).all (fun x => decide (0 < x)) = true ∨
      (List.replicate (m + 1) d).all (fun x => decide (x < 0)) = true := by
    rcases lt_or_gt_of_ne hd with hneg | hpos
    · right
      simp only [List.all_eq_true, List.mem_replicate, decide_eq_true_eq]
      rintro x ⟨-, rfl⟩
      exact hneg
    · left
      simp only [List.all_eq_true, List.mem_replicate, decide_eq_true_eq]
      rintro x ⟨-, rfl⟩
      exact hpos
  unfold ensure_slice_array
  simp only [hdiffs, hlen]
  rw [if_neg (by simp), if_neg (by simp), if_neg (by simp [hlen]),
    if_neg (by simp [hlen]), if_neg (not_not_intro hmono),
    if_neg (by rw [dedup_replicate_succ]; simp)]
  rfl

/-! ### Claim theorems: ArrayConverter and SliceNormalizer -/

/-- C2: for an arithmetic-progression integer array `A` of length at least 2
with constant nonzero step `d`, `ensure_slice(A)` returns
`slice(A[0], A[-1] + sign(d), d)`, and enumerating the integers the slice
denotes over an unbounded ascending domain reproduces `A` in order. -/
theorem ensure_slice_ap_spec (a d : Int) (n : Nat) (hn : 2 ≤ n) (hd : d ≠ 0) :
    ensure_slice_array ⟨true, [n], apL a d n⟩ =
      .ok ⟨some ((apL a d n).headD 0),
           some ((apL a d n).getLastD 0 + (if 0 < d then 1 else -1)), some d⟩ ∧
    rangeList ((apL a d n).headD 0)
      ((apL a d n).getLastD 0 + (if 0 < d then 1 else -1)) d = apL a d n := by
  refine ⟨ensure_slice_array_apL a d n hn hd, ?_⟩
  obtain ⟨m, rfl⟩ : ∃ m, n = m + 2 := ⟨n - 2, by omega⟩
  rw [apL_headD a d (m + 1) 0, apL_getLastD d (m + 1) a 0]
  exact rangeList_of_len _ _ _ (m + 2) (rangeLen_ap a d (m + 1) hd)

/-- Witness for C2 at `A = [4, 2, 0]` (so `a = 4`, `d = -2`, `n = 3`). -/
theorem ensure_slice_ap_spec_witness :
    ensure_slice_array ⟨true, [3], apL 4 (-2) 3⟩ =
      .ok ⟨some ((apL 4 (-2) 3).headD 0),
           some ((apL 4 (-2) 3).getLastD 0 + (if 0 < (-2 : Int) then 1 else -1)), some (-2)⟩ ∧
    rangeList ((apL 4 (-2) 3).headD 0)
      ((apL 4 (-2) 3).getLastD 0 + (if 0 < (-2 : Int) then 1 else -1)) (-2) = apL 4 (-2) 3 :=
  ensure_slice_ap_spec 4 (-2) 3 (by norm_num) (by norm_num)

/-- C4: a slice with negative step and explicit bounds is rewritten to
`slice(stop + 1, start + 1, step)` keeping the step; a fully open slice
passes through; tuples normalize element-wise; scalars pass through. -/
theorem normalize_index_spec (st sp k j : Int) (a : List AtomIndex) (hk : k < 0) :
    normalizeSlice ⟨some st, some sp, some k⟩ = ⟨some (sp + 1), some (st + 1), some k⟩ ∧
    normalizeSlice ⟨none, none, some k⟩ = ⟨none, none, some k⟩ ∧
    normalizeIndex (.tup a) = .tup (a.map normalizeAtom) ∧
    normalizeIndex (.atom (.scalar j)) = .atom (.scalar j) := by
  refine ⟨?_, ?_, rfl, rfl⟩ <;>
    simp [normalizeSlice, show ¬ (0 : Int) < k from by omega]

/-- Witness for C4 at `slice(2, 5, -1)`, scalar 7 and the empty tuple. -/
theorem normalize_index_spec_witness :
    normalizeSlice ⟨some 2, some 5, some (-1)⟩ = ⟨some 6, some 3, some (-1)⟩ ∧
    normalizeSlice ⟨none, none, some (-1)⟩ = ⟨none, none, some (-1)⟩ ∧
    normalizeIndex (.tup []) = .tup (List.map normalizeAtom []) ∧
    normalizeIndex (.atom (.scalar 7)) = .atom (.scalar 7) :=
  normalize_index_spec 2 5 (-1) 7 [] (by norm_num)

/-- C3: on labels `[10,20,30,40,50]`, both range lookups resolve
`slice(15, 45)` to ordinals 1..3 as `slice(1, 4, 1)`; on the gapped labels
`[10,20,40,50]`, both resolve `slice(10, 51)` to the contiguous
`slice(0, 4, 1)` covering ordinals 0..3, the gap label being filtered out. -/
theorem label_range_scenarios :
    ((LabelIndexer.init true [10, 20, 30, 40, 50]) >>=
      (·.getSlice ⟨some 15, some 45, none⟩)) = .ok ⟨some 1, some 4, some 1⟩ ∧
    ((LabelIndexer.init true [10, 20, 30, 40, 50]) >>=
      (·.getMany ⟨some 15, some 45, none⟩)) = .ok ⟨some 1, some 4, some 1⟩ ∧
    ((LabelIndexer.init true [10, 20, 40, 50]) >>=
      (·.getSlice ⟨some 10, some 51, none⟩)) = .ok ⟨some 0, some 4, some 1⟩ ∧
    ((LabelIndexer.init true [10, 20, 40, 50]) >>=
      (·.getMany ⟨some 10, some 51, none⟩)) = .ok ⟨some 0, some 4, some 1⟩ := by
  refine ⟨by decide, by decide, by decide, by decide⟩

/-- C8 counterexample: `ensure_slice(3)` is `slice(3, 4)` whose step is
`None`, not the `slice(3, 4, 1)` the claim states (Python slice objects with
`None` and `1` steps are distinct, if equivalent as selections). -/
theorem ensure_slice_scalar_counterexample :
    ensure_slice_int 3 ≠ ⟨some 3, some 4, some 1⟩ := by decide

/-- C8 amended: `ensure_slice(i)` is `slice(i, i + 1)` with step `None`;
0-D and length-1 integer arrays reduce to the contained scalar; and the
step-`None` slice denotes the same integers as the step-1 slice. -/
theorem ensure_slice_scalar_spec (i v : Int) :
    ensure_slice_int i = ⟨some i, some (i + 1), none⟩ ∧
    ensure_slice_array ⟨true, [], [v]⟩ = .ok ⟨some v, some (v + 1), none⟩ ∧
    ensure_slice_array ⟨true, [1], [v]⟩ = .ok ⟨some v, some (v + 1), none⟩ ∧
    sliceEnum ⟨some i, some (i + 1), none⟩ = sliceEnum ⟨some i, some (i + 1), some 1⟩ :=
  ⟨rfl, rfl, rfl, rfl⟩

/-! ### Claim theorems: LabelIndexer scalar lookup and construction -/

theorem nodup_unique_mem_singleton {l : List Nat} {p : Nat}
    (hnd : l.Nodup) (hp : p ∈ l) (hu : ∀ b ∈ l, b = p) : l = [p] := by
  cases l with
  | nil => cases hp
  | cons a t =>
    have ha : a = p := hu a (List.mem_cons_self a t)
    subst ha
    have ht : t = [] := by
      cases t with
      | nil => rfl
      | cons b t' =>
        have hb : b = a := hu b (List.mem_cons_of_mem _ (List.mem_cons_self b t'))
        subst hb
        exact absurd (List.mem_cons_self b t') (List.nodup_cons.mp hnd).1
    rw [ht]

/-- C5: on a duplicate-free label array, the scalar lookup returns the unique
position holding the requested label, and fails with the label-not-found
error for an absent label. -/
theorem label_lookup_spec (li : LabelIndexer) (p : Nat) (v w : Int)
    (hnd : li.labels.Nodup) (hp : p < li.labels.length)
    (hv : li.labels.getD p 0 = v) (hw : w ∉ li.labels) :
    li.getOne v = .ok p ∧ li.getOne w = .error .labelNotFound := by
  constructor
  · have hfilter : (List.range li.labels.length).filter
        (fun j => decide (li.labels.getD j 0 = v)) = [p] := by
      apply nodup_unique_mem_singleton
      · exact (List.nodup_range _).filter _
      · rw [List.mem_filter]
        exact ⟨List.mem_range.mpr hp, by simp only [decide_eq_true_eq]; exact hv⟩
      · intro b hb
        rw [List.mem_filter, List.mem_range] at hb
        obtain ⟨hblt, hbv⟩ := hb
        have h1 : li.labels.getD b 0 = v := by simpa using hbv
        have h2 : li.labels[b] = li.labels[p] := by
          rw [← List.getD_eq_getElem _ 0 hblt, ← List.getD_eq_getElem _ 0 hp, h1, hv]
        exact (hnd.getElem_inj_iff).mp h2
    unfold LabelIndexer.getOne
    rw [hfilter]
    rfl
  · have hfilter : (List.range li.labels.length).filter
        (fun j => decide (li.labels.getD j 0 = w)) = [] := by
      rw [List.filter_eq_nil_iff]
      intro j hj
      rw [List.mem_range] at hj
      simp only [decide_eq_true_eq]
      intro hjw
      apply hw
      rw [← hjw, List.getD_eq_getElem _ 0 hj]
      exact List.getElem_mem _
    unfold LabelIndexer.getOne
    rw [hfilter]
    rfl

/-- Witness for C5: labels `[10, 20, 30]`, present label 20 at position 1,
absent label 99. -/
theorem label_lookup_spec_witness :
    LabelIndexer.getOne ⟨[10, 20, 30], 10, 31, [0, 1, 2]⟩ 20 = .ok 1 ∧
    LabelIndexer.getOne ⟨[10, 20, 30], 10, 31, [0, 1, 2]⟩ 99 = .error .labelNotFound :=
  label_lookup_spec ⟨[10, 20, 30], 10, 31, [0, 1, 2]⟩ 1 20 99
    (by decide) (by decide) (by decide) (by decide)

theorem foldl_min_le {l : List Int} : ∀ (a : Int), l.foldl min a ≤ a ∧ ∀ x ∈ l, l.foldl min a ≤ x := by
  induction l with
  | nil => intro a; exact ⟨le_refl a, by intro x hx; cases hx⟩
  | cons y t ih =>
    intro a
    have h := ih (min a y)
    constructor
    · exact le_trans h.1 (min_le_left a y)
    · intro x hx
      rcases List.mem_cons.mp hx with rfl | hx'
      · exact le_trans h.1 (min_le_right a x)
      · exact h.2 x hx'

theorem foldl_min_mem {l : List Int} : ∀ (a : Int), l.foldl min a = a ∨ l.foldl min a ∈ l := by
  induction l with
  | nil => intro a; left; rfl
  | cons y t ih =>
    intro a
    rcases ih (min a y) with h | h
    · rcases min_choice a y with hc | hc
      · left; rw [List.foldl_cons, h, hc]
      · right; rw [List.foldl_cons, h, hc]; exact List.mem_cons_self y t
    · right; exact List.mem_cons_of_mem y h

theorem foldl_max_le {l : List Int} : ∀ (a : Int), a ≤ l.foldl max a ∧ ∀ x ∈ l, x ≤ l.foldl max a := by
  induction l with
  | nil => intro a; exact ⟨le_refl a, by intro x hx; cases hx⟩
  | cons y t ih =>
    intro a
    have h := ih (max a y)
    constructor
    · exact le_trans (le_max_left a y) h.1
    · intro x hx
      rcases List.mem_cons.mp hx with rfl | hx'
      · exact le_trans (le_max_right a x) h.1
      · exact h.2 x hx'

theorem foldl_max_mem {l : List Int} : ∀ (a : Int), l.foldl max a = a ∨ l.foldl max a ∈ l := by
  induction l with
  | nil => intro a; left; rfl
  | cons y t ih =>
    intro a
    rcases ih (max a y) with h | h
    · rcases max_choice a y with hc | hc
      · left; rw [List.foldl_cons, h, hc]
      · right; rw [List.foldl_cons, h, hc]; exact List.mem_cons_self y t
    · right; exact List.mem_cons_of_mem y h

theorem intMin_mem {L : List Int} (h : L ≠ []) : intMin L ∈ L := by
  cases L with
  | nil => exact absurd rfl h
  | cons x t =>
    simp only [intMin]
    rcases foldl_min_mem (l := t) x with h' | h'
    · rw [h']; exact List.mem_cons_self x t
    · exact List.mem_cons_of_mem x h'

theorem intMin_le {L : List Int} (x : Int) (hx : x ∈ L) : intMin L ≤ x := by
  cases L with
  | nil => cases hx
  | cons y t =>
    simp only [intMin]
    rcases List.mem_cons.mp hx with rfl | hx'
    · exact (foldl_min_le (l := t) x).1
    · exact (foldl_min_le (l := t) y).2 x hx'

theorem intMax_mem {L : List Int} (h : L ≠ []) : intMax L ∈ L := by
  cases L with
  | nil => exact absurd rfl h
  | cons x t =>
    simp only [intMax]
    rcases foldl_max_mem (l := t) x with h' | h'
    · rw [h']; exact List.mem_cons_self x t
    · exact List.mem_cons_of_mem x h'

theorem intMax_le {L : List Int} (x : Int) (hx : x ∈ L) : x ≤ intMax L := by
  cases L with
  | nil => cases hx
  | cons y t =>
    simp only [intMax]
    rcases List.mem_cons.mp hx with rfl | hx'
    · exact (foldl_max_le (l := t) x).1
    · exact (foldl_max_le (l := t) y).2 x hx'

theorem dedup_length_eq_iff_nodup {L : List Int} : L.dedup.length = L.length ↔ L.Nodup := by
  constructor
  · intro h
    rw [← (L.dedup_sublist).eq_of_length h]
    exact L.nodup_dedup
  · intro h
    rw [List.dedup_eq_self.mpr h]

/-- C7 counterexample: the empty array has integer dtype and no duplicate,
yet construction fails — numpy's `labels.min()` raises on a zero-size
array. -/
theorem label_indexer_init_counterexample :
    LabelIndexer.init true [] = .error .zeroSizeReduction := by decide

/-- C7 amended: construction fails on a non-integer dtype and on duplicated
labels; on a nonempty duplicate-free integer array it succeeds, precomputing
the minimum label, the exclusive maximum label and the sort permutation. -/
theorem label_indexer_init_spec (L M : List Int)
    (hnd : L.Nodup) (hne : L ≠ []) (hM : ¬ M.Nodup) :
    LabelIndexer.init true L = .ok ⟨L, intMin L, intMax L + 1, argsort L⟩ ∧
    intMin L ∈ L ∧ L.all (fun x => intMin L ≤ x) ∧
    intMax L ∈ L ∧ L.all (fun x => x ≤ intMax L) ∧
    (argsort L).Perm (List.range L.length) ∧
    ((argsort L).map (fun i => L.getD i 0)).Sorted (· ≤ ·) ∧
    LabelIndexer.init false L = .error .nonIntegerLabels ∧
    LabelIndexer.init true M = .error .dupLabels := by
  refine ⟨?_, intMin_mem hne, ?_, intMax_mem hne, ?_, ?_, ?_, rfl, ?_⟩
  · unfold LabelIndexer.init
    rw [if_neg (by simp), if_neg (not_not_intro (dedup_length_eq_iff_nodup.mpr hnd)),
      if_neg (by simpa using hne)]
  · simp only [List.all_eq_true, decide_eq_true_eq]
    exact fun x hx => intMin_le x hx
  · simp only [List.all_eq_true, decide_eq_true_eq]
    exact fun x hx => intMax_le x hx
  · exact List.perm_insertionSort _ _
  · haveI ht : IsTotal Nat (fun i j => L.getD i 0 ≤ L.getD j 0) :=
      ⟨fun a b => le_total _ _⟩
    haveI htr : IsTrans Nat (fun i j => L.getD i 0 ≤ L.getD j 0) :=
      ⟨fun a b c hab hbc => le_trans hab hbc⟩
    exact List.Pairwise.map _ (fun a b h => h) (List.sorted_insertionSort _ _)
  · unfold LabelIndexer.init
    rw [if_neg (by simp)]
    rw [if_pos]
    intro hlen
    exact hM (dedup_length_eq_iff_nodup.mp hlen)

/-- Witness for C7 at `L = [10, 5]`, `M = [1, 1]`. -/
theorem label_indexer_init_spec_witness :
    LabelIndexer.init true [10, 5] = .ok ⟨[10, 5], intMin [10, 5], intMax [10, 5] + 1, argsort [10, 5]⟩ ∧
    intMin [10, 5] ∈ [(10 : Int), 5] ∧ ([(10 : Int), 5]).all (fun x => intMin [10, 5] ≤ x) ∧
    intMax [10, 5] ∈ [(10 : Int), 5] ∧ ([(10 : Int), 5]).all (fun x => x ≤ intMax [10, 5]) ∧
    (argsort [10, 5]).Perm (List.range ([(10 : Int), 5]).length) ∧
    ((argsort [10, 5]).map (fun i => [(10 : Int), 5].getD i 0)).Sorted (· ≤ ·) ∧
    LabelIndexer.init false [10, 5] = .error .nonIntegerLabels ∧
    LabelIndexer.init true [1, 1] = .error .dupLabels :=
  label_indexer_init_spec [10, 5] [1, 1] (by decide) (by decide) (by decide)

/-! ### Claim theorems: Lines default offset and empty trace selections -/

/-- C9: for a non-tuple index `i`, `Lines.__getitem__(i)` computes exactly
what `__getitem__((i, o0))` computes, where `o0` is the first offset label
captured at construction. -/
theorem lines_default_offset_spec (dn : String) (ls os : List Int) (ax : Nat)
    (ln : LinesModel) (i : AtomIndex) (h : linesInit dn ls os ax = .ok ln) :
    linesGetItem ln (.inl i) = linesGetItem ln (.inr (i, .scalar (os.headD 0))) ∧
    ln.defaultOffset = os.headD 0 := by
  have hdef : ln.defaultOffset = os.headD 0 := by
    unfold linesInit at h
    cases hli : LabelIndexer.init true ls with
    | error er => rw [hli] at h; cases h
    | ok li =>
      rw [hli] at h
      cases hoi : LabelIndexer.init true os with
      | error er => rw [hoi] at h; cases h
      | ok oi =>
        rw [hoi] at h
        cases h
        rfl
  refine ⟨?_, hdef⟩
  show linesPlan ln i (.scalar ln.defaultOffset) = linesPlan ln i (.scalar (os.headD 0))
  rw [hdef]

/-- Witness for C9: a one-offset `Lines` over labels `[1, 2]`, indexed by the
scalar label 2. -/
theorem lines_default_offset_spec_witness :
    linesGetItem ⟨"i", ⟨[1, 2], 1, 3, [0, 1]⟩, ⟨[5], 5, 6, [0]⟩, 5, 0⟩ (.inl (.scalar 2)) =
      linesGetItem ⟨"i", ⟨[1, 2], 1, 3, [0, 1]⟩, ⟨[5], 5, 6, [0]⟩, 5, 0⟩
        (.inr (.scalar 2, .scalar (([(5 : Int)]).headD 0))) ∧
    LinesModel.defaultOffset ⟨"i", ⟨[1, 2], 1, 3, [0, 1]⟩, ⟨[5], 5, 6, [0]⟩, 5, 0⟩ =
      ([(5 : Int)]).headD 0 :=
  lines_default_offset_spec "i" [1, 2] [5] 0
    ⟨"i", ⟨[1, 2], 1, 3, [0, 1]⟩, ⟨[5], 5, 6, [0]⟩, 5, 0⟩ (.scalar 2) (by decide)

/-- C10: on a nonempty structured shape, a slice that selects no flat trace
ordinals makes `StructuredTraceIndexer._get_many` fail — the empty per-axis
coordinate set cannot be converted to a slice — instead of returning an
empty bounding box and recipe. -/
theorem st_empty_selection_spec (shape : List Nat) (s : PySlice)
    (hsh : shape ≠ []) (h : applySliceNat (List.range shape.prod) s = .ok []) :
    stGetMany shape s = .error .emptyArray := by
  obtain ⟨d, ds, rfl⟩ := List.exists_cons_of_ne_nil hsh
  have hunr : unraveledAxes (d :: ds) [] = List.replicate (ds.length + 1) ([] : List Nat) := by
    unfold unraveledAxes
    rw [show (fun k : Nat => ((([] : List Nat).map (unravel (d :: ds))).map
          (fun c => c.getD k 0))) = (fun _ : Nat => ([] : List Nat)) from funext (fun k => rfl)]
    rw [List.map_const', List.length_range, List.length_cons]
  have huniq : uniqueAxes (d :: ds) [] = [] :: List.replicate ds.length ([] : List Nat) := by
    unfold uniqueAxes
    rw [hunr, List.replicate_succ, List.map_cons]
    rw [show npUnique [] = [] from rfl]
    congr 1
    rw [List.map_replicate]
    rfl
  simp only [stGetMany, h, huniq]
  rfl

/-- Witness for C10: shape `(4, 3, 2)` with the empty selection
`slice(5, 5)`. -/
theorem st_empty_selection_spec_witness :
    stGetMany [4, 3, 2] ⟨some 5, some 5, none⟩ = .error .emptyArray :=
  st_empty_selection_spec [4, 3, 2] ⟨some 5, some 5, none⟩ (by decide) (by decide)

/-! ### Claim theorems: range lookup characterization -/

theorem rangeList_length (b e st : Int) : (rangeList b e st).length = rangeLen b e st := by
  simp [rangeList]

theorem getLastD_map_ofNat (l : List Nat) :
    ∀ x, (l.map Int.ofNat).getLastD (Int.ofNat x) = Int.ofNat (l.getLastD x) := by
  induction l with
  | nil => intro x; rfl
  | cons y t ih =>
    intro x
    rw [List.map_cons, List.getLastD_cons, List.getLastD_cons, ih y]

theorem check_iff_isAP (i0 : Nat) (rest : List Nat) :
    sliceEnum (idxSlice (i0 :: rest)) = (i0 :: rest).map Int.ofNat ↔ IsAPIdx (i0 :: rest) := by
  constructor
  · intro hc
    cases rest with
    | nil =>
      refine ⟨Int.ofNat i0, 1, one_ne_zero, ?_⟩
      rw [List.length_cons, List.length_nil, apL_one]
      rfl
    | cons i1 t =>
      by_cases hstep : (Int.ofNat i1 - Int.ofNat i0) = 0
      · exfalso
        have hz : sliceEnum (idxSlice (i0 :: i1 :: t)) = [] := by
          show rangeList _ _ (Int.ofNat i1 - Int.ofNat i0) = []
          rw [hstep]
          rfl
        rw [hz] at hc
        simp at hc
      · refine ⟨Int.ofNat i0, Int.ofNat i1 - Int.ofNat i0, hstep, ?_⟩
        have hlen : rangeLen (Int.ofNat i0)
            (Int.ofNat ((i0 :: i1 :: t).getLastD 0) +
              (if 0 < Int.ofNat i1 - Int.ofNat i0 then 1 else -1))
            (Int.ofNat i1 - Int.ofNat i0) = (i0 :: i1 :: t).length := by
          have hl := congrArg List.length hc
          rw [List.length_map] at hl
          rw [← hl]
          exact (rangeList_length _ _ _).symm
        rw [← hc]
        exact rangeList_of_len _ _ _ _ hlen
  · rintro ⟨a, d, hd, heq⟩
    cases rest with
    | nil =>
      rw [List.length_cons, List.length_nil, apL_one] at heq
      rw [List.map_cons, List.map_nil] at heq ⊢
      obtain ⟨ha, -⟩ := List.cons.injEq .. ▸ heq
      have h1 : rangeLen (Int.ofNat i0) (Int.ofNat i0 + 1) 1 = 1 := by
        simp [rangeLen]
      show rangeList (Int.ofNat i0) (Int.ofNat i0 + 1) 1 = [Int.ofNat i0]
      rw [rangeList_of_len _ _ _ 1 h1, apL_one]
    | cons i1 t =>
      have hlen : (i0 :: i1 :: t).length = (t.length + 1) + 1 := by
        simp
      rw [hlen, apL_succ_cons, List.map_cons] at heq
      have ha : Int.ofNat i0 = a := (List.cons.injEq .. ▸ heq).1
      have htl : (i1 :: t).map Int.ofNat = apL (a + d) d (t.length + 1) :=
        (List.cons.injEq .. ▸ heq).2
      have hi1 : Int.ofNat i1 = a + d := by
        rw [apL_succ_cons, List.map_cons] at htl
        exact (List.cons.injEq .. ▸ htl).1
      have hstepd : idxStep (i0 :: i1 :: t) = d := by
        show Int.ofNat i1 - Int.ofNat i0 = d
        rw [ha, hi1]
        ring
      have hlast : Int.ofNat ((i0 :: i1 :: t).getLastD 0) = a + d * (t.length + 1 : Nat) := by
        rw [show Int.ofNat ((i0 :: i1 :: t).getLastD 0) =
            ((i0 :: i1 :: t).map Int.ofNat).getLastD (Int.ofNat 0) from
            (getLastD_map_ofNat _ 0).symm]
        rw [List.map_cons, heq, ← apL_succ_cons]
        exact apL_getLastD d (t.length + 1) a (Int.ofNat 0)
      show rangeList (Int.ofNat ((i0 :: i1 :: t).headD 0))
        (Int.ofNat ((i0 :: i1 :: t).getLastD 0) +
          (if 0 < idxStep (i0 :: i1 :: t) then 1 else -1))
        (idxStep (i0 :: i1 :: t)) = (i0 :: i1 :: t).map Int.ofNat
      rw [List.headD_cons, hstepd, hlast, List.map_cons, heq, ← apL_succ_cons, ha]
      exact rangeList_of_len _ _ _ _ (rangeLen_ap a d (t.length + 1) hd)

/-- C6 amended: for the composite accessor's `LabelIndexer` (indexables.py),
whenever the label slice resolves to a list of storage ordinals, the range
lookup fails with the empty-range error exactly when that list is empty,
fails with the non-uniform error exactly when the nonempty list is not a
single arithmetic progression, and otherwise succeeds with the slice whose
arithmetic enumeration is exactly the resolved ordinal list. -/
theorem label_range_lookup_char (li : LabelIndexer) (s : PySlice) (idxs : List Nat)
    (h : labelSliceToIndices li s = .ok idxs) :
    (li.getSlice s =
      if idxs = [] then .error .emptyLabelRange
      else if sliceEnum (idxSlice idxs) = idxs.map Int.ofNat then .ok (idxSlice idxs)
      else .error .nonUniformLabelRange) ∧
    (idxs ≠ [] → (sliceEnum (idxSlice idxs) = idxs.map Int.ofNat ↔ IsAPIdx idxs)) := by
  constructor
  · unfold LabelIndexer.getSlice
    rw [h]
    cases idxs with
    | nil => rfl
    | cons i0 rest =>
      by_cases hchk : sliceEnum (idxSlice (i0 :: rest)) = (i0 :: rest).map Int.ofNat
      · rw [if_neg (List.cons_ne_nil i0 rest), if_pos hchk]
        show (if sliceEnum (idxSlice (i0 :: rest)) ≠ (i0 :: rest).map Int.ofNat then
            (Except.error SliceErr.nonUniformLabelRange : Except SliceErr PySlice)
          else .ok (idxSlice (i0 :: rest))) = .ok (idxSlice (i0 :: rest))
        rw [if_neg (not_not_intro hchk)]
      · rw [if_neg (List.cons_ne_nil i0 rest), if_neg hchk]
        show (if sliceEnum (idxSlice (i0 :: rest)) ≠ (i0 :: rest).map Int.ofNat then
            (Except.error SliceErr.nonUniformLabelRange : Except SliceErr PySlice)
          else .ok (idxSlice (i0 :: rest))) = .error .nonUniformLabelRange
        rw [if_pos hchk]
  · intro hne
    obtain ⟨i0, rest, rfl⟩ := List.exists_cons_of_ne_nil hne
    exact check_iff_isAP i0 rest

/-- Witness for C6's amended characterization: labels `[10, 20]` with the
label slice `slice(10, 21)` resolving to ordinals `[0, 1]`. -/
theorem label_range_lookup_char_witness :
    (LabelIndexer.getSlice ⟨[10, 20], 10, 21, [0, 1]⟩ ⟨some 10, some 21, none⟩ =
      if ([0, 1] : List Nat) = [] then .error .emptyLabelRange
      else if sliceEnum (idxSlice [0, 1]) = ([0, 1] : List Nat).map Int.ofNat then
        .ok (idxSlice [0, 1])
      else .error .nonUniformLabelRange) ∧
    (([0, 1] : List Nat) ≠ [] →
      (sliceEnum (idxSlice [0, 1]) = ([0, 1] : List Nat).map Int.ofNat ↔ IsAPIdx [0, 1])) :=
  label_range_lookup_char ⟨[10, 20], 10, 21, [0, 1]⟩ ⟨some 10, some 21, none⟩ [0, 1] (by decide)

/-- C6 counterexample: with stored labels `[10, 30, 20]`, the slice
`slice(10, 31)` resolves to the non-monotonic, non-arithmetic ordinals
`[0, 2, 1]`, yet the utils.py range lookup (`_get_many`, via
`ensure_slice`) fails with the non-monotonic invalid-index error, not with
the non-uniform-range (`MultiSliceError`) one the claim requires for every
non-arithmetic resolution. -/
theorem label_range_error_counterexample :
    labelSliceToIndices ⟨[10, 30, 20], 10, 31, [0, 2, 1]⟩ ⟨some 10, some 31, none⟩ =
      .ok [0, 2, 1] ∧
    LabelIndexer.getMany ⟨[10, 30, 20], 10, 31, [0, 2, 1]⟩ ⟨some 10, some 31, none⟩ =
      .error .nonMonotonic ∧
    ¬ IsAPIdx [0, 2, 1] := by
  refine ⟨by decide, by decide, ?_⟩
  have hchk : ¬ (sliceEnum (idxSlice [0, 2, 1]) = ([0, 2, 1] : List Nat).map Int.ofNat) := by
    decide
  exact fun hap => hchk ((check_iff_isAP 0 [2, 1]).mpr hap)

/-! ### Infrastructure for the structured-slice claim -/

theorem mapE_ok_forall₂ {α β : Type} (f : α → Except SliceErr β) :
    ∀ (l : List α) (r : List β), mapE f l = .ok r ↔ List.Forall₂ (fun a b => f a = .ok b) l r := by
  intro l
  induction l with
  | nil =>
    intro r
    constructor
    · intro h
      cases h
      exact List.Forall₂.nil
    · intro h
      cases h
      rfl
  | cons a t ih =>
    intro r
    constructor
    · intro h
      unfold mapE at h
      cases hfa : f a with
      | error er => rw [hfa] at h; cases h
      | ok b =>
        rw [hfa] at h
        cases hmt : mapE f t with
        | error er => rw [hmt] at h; cases h
        | ok bs =>
          rw [hmt] at h
          cases h
          exact List.Forall₂.cons hfa ((ih bs).mp hmt)
    · intro h
      cases h with
      | cons hfa htl =>
        unfold mapE
        rw [hfa, (ih _).mpr htl]

theorem unravel_length : ∀ (shape : List Nat) (i : Nat), (unravel shape i).length = shape.length := by
  intro shape
  induction shape with
  | nil => intro i; rfl
  | cons d ds ih => intro i; simp [unravel, ih]

theorem unravel_lt : ∀ (shape : List Nat) (i : Nat), i < shape.prod →
    List.Forall₂ (· < ·) (unravel shape i) shape := by
  intro shape
  induction shape with
  | nil => intro i _; exact List.Forall₂.nil
  | cons d ds ih =>
    intro i hi
    rw [List.prod_cons] at hi
    have hP : 0 < ds.prod := by
      rcases Nat.eq_zero_or_pos ds.prod with h0 | h
      · rw [h0, Nat.mul_zero] at hi; omega
      · exact h
    refine List.Forall₂.cons ?_ (ih _ (Nat.mod_lt _ hP))
    exact Nat.div_lt_of_lt_mul (by rw [Nat.mul_comm] at hi; exact hi)

theorem ravel_unravel : ∀ (shape : List Nat) (i : Nat), i < shape.prod →
    ravel shape (unravel shape i) = i := by
  intro shape
  induction shape with
  | nil =>
    intro i hi
    rw [List.prod_nil] at hi
    have h0 : i = 0 := by omega
    subst h0
    rfl
  | cons d ds ih =>
    intro i hi
    rw [List.prod_cons] at hi
    have hP : 0 < ds.prod := by
      rcases Nat.eq_zero_or_pos ds.prod with h0 | h
      · rw [h0, Nat.mul_zero] at hi; omega
      · exact h
    show (i / ds.prod) * ds.prod + ravel ds (unravel ds (i % ds.prod)) = i
    rw [ih _ (Nat.mod_lt _ hP)]
    rw [Nat.mul_comm]
    exact Nat.div_add_mod i ds.prod

theorem ravel_lt : ∀ (shape c : List Nat), List.Forall₂ (· < ·) c shape →
    ravel shape c < shape.prod := by
  intro shape
  induction shape with
  | nil =>
    intro c h
    cases h
    simp [ravel]
  | cons d ds ih =>
    intro c h
    cases h with
    | cons hx htl =>
      rename_i x c'
      show x * ds.prod + ravel ds c' < (d :: ds).prod
      rw [List.prod_cons]
      have h1 : ravel ds c' < ds.prod := ih c' htl
      have h2 : x + 1 ≤ d := hx
      calc x * ds.prod + ravel ds c' < x * ds.prod + ds.prod := by omega
        _ = (x + 1) * ds.prod := by ring
        _ ≤ d * ds.prod := Nat.mul_le_mul_right _ h2

theorem unravel_ravel : ∀ (shape c : List Nat), List.Forall₂ (· < ·) c shape →
    unravel shape (ravel shape c) = c := by
  intro shape
  induction shape with
  | nil =>
    intro c h
    cases h
    rfl
  | cons d ds ih =>
    intro c h
    cases h with
    | cons hx htl =>
      rename_i x c'
      have h1 : ravel ds c' < ds.prod := ravel_lt ds c' htl
      show (x * ds.prod + ravel ds c') / ds.prod ::
        unravel ds ((x * ds.prod + ravel ds c') % ds.prod) = x :: c'
      have hP : 0 < ds.prod := by omega
      have hdiv : (x * ds.prod + ravel ds c') / ds.prod = x := by
        rw [Nat.mul_comm, Nat.mul_add_div hP, Nat.div_eq_of_lt h1]
        omega
      have hmod : (x * ds.prod + ravel ds c') % ds.prod = ravel ds c' := by
        rw [Nat.add_comm, Nat.add_mul_mod_self_right]
        exact Nat.mod_eq_of_lt h1
      rw [hdiv, hmod, ih c' htl]

theorem npUnique_mem (l : List Nat) (x : Nat) : x ∈ npUnique l ↔ x ∈ l := by
  unfold npUnique
  rw [List.mem_dedup]
  exact (List.perm_insertionSort _ l).mem_iff

theorem npUnique_sorted (l : List Nat) : (npUnique l).Sorted (· < ·) := by
  unfold npUnique
  have hle : (l.insertionSort (· ≤ ·)).Sorted (· ≤ ·) := List.sorted_insertionSort _ l
  have hle' : ((l.insertionSort (· ≤ ·)).dedup).Sorted (· ≤ ·) :=
    List.Pairwise.sublist (List.dedup_sublist _) hle
  exact hle'.lt_of_le (List.nodup_dedup _)

theorem npUnique_ne_nil (l : List Nat) (h : l ≠ []) : npUnique l ≠ [] := by
  obtain ⟨x, t, rfl⟩ := List.exists_cons_of_ne_nil h
  intro hc
  have : x ∈ npUnique (x :: t) := (npUnique_mem _ x).mpr (List.mem_cons_self x t)
  rw [hc] at this
  cases this

theorem cartProd_mem_iff : ∀ (us : List (List Nat)) (c : List Nat),
    c ∈ cartProd us ↔ List.Forall₂ (· ∈ ·) c us := by
  intro us
  induction us with
  | nil =>
    intro c
    constructor
    · intro h
      rcases List.mem_singleton.mp h with rfl
      exact List.Forall₂.nil
    · intro h
      cases h
      exact List.mem_singleton.mpr rfl
  | cons u us' ih =>
    intro c
    constructor
    · intro h
      unfold cartProd at h
      rw [List.mem_flatMap] at h
      obtain ⟨x, hx, hc⟩ := h
      rw [List.mem_map] at hc
      obtain ⟨c', hc', rfl⟩ := hc
      exact List.Forall₂.cons hx ((ih c').mp hc')
    · intro h
      cases h with
      | cons hx htl =>
        rename_i x c'
        unfold cartProd
        rw [List.mem_flatMap]
        exact ⟨x, hx, List.mem_map.mpr ⟨c', (ih c').mpr htl, rfl⟩⟩

theorem forall₂_lt_of_mem_cartProd : ∀ {ds : List Nat} {us : List (List Nat)} {c : List Nat},
    List.Forall₂ (fun d u => ∀ x ∈ u, x < d) ds us → c ∈ cartProd us →
    List.Forall₂ (· < ·) c ds := by
  intro ds us c hus hc
  rw [cartProd_mem_iff] at hc
  induction hus generalizing c with
  | nil =>
    cases hc
    exact List.Forall₂.nil
  | cons hdu htl ih =>
    cases hc with
    | cons hx hrest =>
      exact List.Forall₂.cons (hdu _ hx) (ih hrest)

theorem ravel_cartProd_sorted : ∀ {shape : List Nat} {us : List (List Nat)},
    List.Forall₂ (fun d u => (∀ x ∈ u, x < d) ∧ u.Sorted (· < ·)) shape us →
    ((cartProd us).map (ravel shape)).Sorted (· < ·) := by
  intro shape us h
  induction h with
  | nil =>
    exact List.sorted_singleton _
  | @cons d u ds us' hdu htl ih =>
    have hbnd : List.Forall₂ (fun d u => ∀ x ∈ u, x < d) ds us' :=
      htl.imp (fun a b h => h.1)
    show ((cartProd (u :: us')).map (ravel (d :: ds))).Sorted (· < ·)
    unfold cartProd
    rw [List.map_flatMap]
    rw [List.flatMap_def]
    rw [List.Sorted, List.pairwise_flatten]
    constructor
    · intro l hl
      rw [List.mem_map] at hl
      obtain ⟨x, hx, rfl⟩ := hl
      rw [List.map_map]
      have : (List.map (ravel (d :: ds) ∘ fun c => x :: c) (cartProd us')) =
          List.map (fun r => x * ds.prod + r) ((cartProd us').map (ravel ds)) := by
        rw [List.map_map]
        apply List.map_congr_left
        intro c _
        rfl
      rw [this]
      exact List.Pairwise.map _ (fun a b hab => by omega) ih
    · have hpw : ((cartProd us').map (ravel ds)).Sorted (· < ·) := ih
      apply List.Pairwise.map
        (S := fun l₁ l₂ => ∀ y ∈ l₁, ∀ z ∈ l₂, y < z)
      · intro x₁ x₂ hx12 y hy z hz
        rw [List.map_map, List.mem_map] at hy hz
        obtain ⟨c₁, hc₁, rfl⟩ := hy
        obtain ⟨c₂, hc₂, rfl⟩ := hz
        show ravel (d :: ds) (x₁ :: c₁) < ravel (d :: ds) (x₂ :: c₂)
        show x₁ * ds.prod + ravel ds c₁ < x₂ * ds.prod + ravel ds c₂
        have hr₁ : ravel ds c₁ < ds.prod := ravel_lt ds c₁ (forall₂_lt_of_mem_cartProd hbnd hc₁)
        have hx12' : x₁ + 1 ≤ x₂ := hx12
        calc x₁ * ds.prod + ravel ds c₁ < (x₁ + 1) * ds.prod := by
              have : x₁ * ds.prod + ds.prod = (x₁ + 1) * ds.prod := by ring
              omega
          _ ≤ x₂ * ds.prod := Nat.mul_le_mul_right _ hx12'
          _ ≤ x₂ * ds.prod + ravel ds c₂ := Nat.le_add_right _ _
      · exact hdu.2

theorem sorted_filter_eq : ∀ (l t : List Nat), l.Sorted (· < ·) → t.Sorted (· < ·) →
    (∀ x ∈ t, x ∈ l) → l.filter (fun x => decide (x ∈ t)) = t := by
  intro l
  induction l with
  | nil =>
    intro t _ _ hsub
    cases t with
    | nil => rfl
    | cons b t' => exact absurd (hsub b (List.mem_cons_self b t')) (by simp)
  | cons a l' ih =>
    intro t hl ht hsub
    have hl' : l'.Sorted (· < ·) := hl.tail
    have hagt : ∀ x ∈ l', a < x := fun x hx => List.rel_of_sorted_cons hl x hx
    by_cases hat : a ∈ t
    · obtain ⟨b, t', rfl⟩ : ∃ b t', t = b :: t' := by
        cases t with
        | nil => cases hat
        | cons b t' => exact ⟨b, t', rfl⟩
      have hab : a = b := by
        rcases List.mem_cons.mp hat with h | h
        · exact h
        · have h1 : b < a := List.rel_of_sorted_cons ht a h
          have h2 : b ∈ a :: l' := hsub b (List.mem_cons_self b t')
          rcases List.mem_cons.mp h2 with rfl | h3
          · rfl
          · exact absurd (hagt b h3) (by omega)
      subst hab
      rw [List.filter_cons_of_pos (by simp [hat])]
      congr 1
      have hstep : l'.filter (fun x => decide (x ∈ a :: t')) =
          l'.filter (fun x => decide (x ∈ t')) := by
        apply List.filter_congr
        intro x hx
        have hax : a ≠ x := by
          have := hagt x hx
          omega
        simp [List.mem_cons, hax.symm]
      rw [hstep]
      apply ih t' hl' ht.tail
      intro y hy
      have h1 : y ∈ a :: l' := hsub y (List.mem_cons_of_mem a hy)
      have h2 : a < y := List.rel_of_sorted_cons ht y hy
      rcases List.mem_cons.mp h1 with rfl | h3
      · omega
      · exact h3
    · have hsub' : ∀ x ∈ t, x ∈ l' := by
        intro x hx
        rcases List.mem_cons.mp (hsub x hx) with rfl | h
        · exact absurd hx hat
        · exact h
      rw [List.filter_cons_of_neg (by simp [hat])]
      exact ih t hl' ht hsub'

theorem filter_map_comm {α β : Type} (g : α → β) (p : α → Bool) (q : β → Bool) :
    ∀ (l : List α), (∀ x ∈ l, p x = q (g x)) →
      (l.filter p).map g = (l.map g).filter q := by
  intro l
  induction l with
  | nil => intro _; rfl
  | cons a t ih =>
    intro h
    have ha : p a = q (g a) := h a (List.mem_cons_self a t)
    have ht : ∀ x ∈ t, p x = q (g x) := fun x hx => h x (List.mem_cons_of_mem a hx)
    by_cases hpa : p a = true
    · rw [List.filter_cons_of_pos hpa, List.map_cons, List.map_cons,
        List.filter_cons_of_pos (ha ▸ hpa), ih ht]
    · have hpa' : p a = false := by
        cases hp : p a
        · rfl
        · exact absurd hp hpa
      rw [List.filter_cons_of_neg (by rw [hpa']; simp), List.map_cons,
        List.filter_cons_of_neg (by rw [← ha, hpa']; simp), ih ht]

theorem enum_filter_extract {α β : Type} (A : α → β) (p : α → Bool) (dflt : β) (l : List α) :
    ((l.enum.filter (fun ip => p ip.2)).map (·.1)).map (fun i => (l.map A).getD i dflt) =
      (l.filter p).map A := by
  have hmem : ∀ ip ∈ l.enum.filter (fun ip => p ip.2),
      (l.map A).getD ip.1 dflt = A ip.2 := by
    intro ip hip
    have hip' : ip ∈ l.enum := List.mem_filter.mp hip |>.1
    obtain ⟨i, x⟩ := ip
    obtain ⟨hlt, hx⟩ := List.mem_enum hip'
    rw [List.getD_eq_getElem?_getD, List.getElem?_eq_getElem (by simpa using hlt)]
    rw [List.getElem_map]
    rw [hx]
    rfl
  rw [List.map_map]
  have h1 : (l.enum.filter (fun ip => p ip.2)).map
      ((fun i => (l.map A).getD i dflt) ∘ (·.1)) =
      (l.enum.filter (fun ip => p ip.2)).map (fun ip => A ip.2) :=
    List.map_congr_left (fun ip hip => hmem ip hip)
  rw [h1]
  have h2 : (l.enum.filter (fun ip => p ip.2)).map (fun ip => A ip.2) =
      ((l.enum.filter (fun ip => p ip.2)).map Prod.snd).map A := by
    rw [List.map_map]
    rfl
  rw [h2]
  have h3 : (l.enum.filter (fun ip => p ip.2)).map Prod.snd =
      (l.enum.map Prod.snd).filter p :=
    filter_map_comm Prod.snd _ p l.enum (fun x _ => rfl)
  rw [h3, List.enum_map_snd]

theorem enum_filter_length {α : Type} (p : α → Bool) (l : List α) :
    ((l.enum.filter (fun ip => p ip.2)).map (·.1)).length = (l.filter p).length := by
  rw [List.length_map]
  have h3 : (l.enum.filter (fun ip => p ip.2)).map Prod.snd =
      (l.enum.map Prod.snd).filter p :=
    filter_map_comm Prod.snd _ p l.enum (fun x _ => rfl)
  have := congrArg List.length h3
  rw [List.length_map, List.enum_map_snd] at this
  rw [this]

theorem rangeList_mem_bounds (b e st : Int) (hst : 0 < st) :
    ∀ x ∈ rangeList b e st, b ≤ x ∧ x < e := by
  intro x hx
  rw [rangeList, List.mem_map] at hx
  obtain ⟨i, hi, rfl⟩ := hx
  rw [List.mem_range] at hi
  have hnn : (0 : Int) ≤ st * (i : Int) :=
    mul_nonneg (by omega) (Int.natCast_nonneg i)
  refine ⟨by omega, ?_⟩
  have h1 : (i : Int) < (e - b + st - 1) / st := by
    rw [← Int.lt_toNat]
    have : rangeLen b e st = ((e - b + st - 1) / st).toNat := by
      unfold rangeLen
      rw [if_pos hst]
    omega
  have h2 : ((i : Int) + 1) * st ≤ e - b + st - 1 :=
    (Int.le_ediv_iff_mul_le hst).mp (by omega)
  nlinarith [h2]

theorem rangeList_sorted (b e st : Int) (hst : 0 < st) :
    (rangeList b e st).Sorted (· < ·) := by
  rw [rangeList]
  refine List.Pairwise.map _ (fun i j hij => ?_) (List.pairwise_lt_range _)
  have : st * (i : Int) < st * (j : Int) :=
    mul_lt_mul_of_pos_left (by exact_mod_cast hij) hst
  omega

theorem clampIndex_pos_bounds (v : Option Int) (dflt step len : Int)
    (hstep : 0 < step) (h0 : 0 ≤ dflt) (h1 : dflt ≤ len) :
    0 ≤ clampIndex v dflt step len ∧ clampIndex v dflt step len ≤ len := by
  cases v with
  | none => exact ⟨h0, h1⟩
  | some v₀ =>
    simp only [clampIndex]
    split_ifs <;> omega

theorem clampIndex_eval (v dflt step len : Int) (h0 : 0 ≤ v) (h1 : v ≤ len)
    (hstep : ¬ step < 0) :
    clampIndex (some v) dflt step len = v := by
  simp only [clampIndex]
  split_ifs <;> omega

/-- Slicing `np.arange(N)` with a positive-step (or step-omitted) slice
yields a strictly increasing list of ordinals below `N`. -/
theorem applySlice_range_pos (N : Nat) (s : PySlice) (F : List Nat)
    (hstep : s.step = none ∨ ∃ k, s.step = some k ∧ 0 < k)
    (hF : applySliceNat (List.range N) s = .ok F) :
    F.Sorted (· < ·) ∧ ∀ f ∈ F, f < N := by
  have hst : 0 < s.step.getD 1 := by
    rcases hstep with h | ⟨k, hk, hpos⟩
    · rw [h]; norm_num
    · rw [hk]; exact hpos
  have hlen : Int.ofNat (List.range N).length = (N : Int) := by
    rw [List.length_range]; rfl
  have hidx : s.indices ((N : Int)) =
      .ok (clampIndex s.start 0 (s.step.getD 1) N,
           clampIndex s.stop (N : Int) (s.step.getD 1) N, s.step.getD 1) := by
    rw [PySlice.indices, if_neg (by omega), if_neg (by omega),
      if_neg (by omega), if_neg (by omega)]
  have hF' : (Except.ok ((rangeList (clampIndex s.start 0 (s.step.getD 1) N)
      (clampIndex s.stop (N : Int) (s.step.getD 1) N) (s.step.getD 1)).map
        (fun i => (List.range N).getD i.toNat 0)) : Except SliceErr (List Nat)) =
      Except.ok F := by
    rw [← hF]
    unfold applySliceNat
    rw [hlen, hidx]
  have hFeq := (Except.ok.injEq _ _).mp hF'
  obtain ⟨hb0, hbN⟩ := clampIndex_pos_bounds s.start 0 (s.step.getD 1) N hst
    (le_refl 0) (by omega)
  obtain ⟨he0, heN⟩ := clampIndex_pos_bounds s.stop (N : Int) (s.step.getD 1) N hst
    (by omega) (le_refl _)
  have hxb := rangeList_mem_bounds (clampIndex s.start 0 (s.step.getD 1) N)
    (clampIndex s.stop (N : Int) (s.step.getD 1) N) (s.step.getD 1) hst
  have hmem : ∀ x ∈ rangeList (clampIndex s.start 0 (s.step.getD 1) N)
      (clampIndex s.stop (N : Int) (s.step.getD 1) N) (s.step.getD 1),
      0 ≤ x ∧ x < (N : Int) := by
    intro x hx
    obtain ⟨hxl, hxr⟩ := hxb x hx
    exact ⟨by omega, by omega⟩
  have hgd : ∀ x ∈ rangeList (clampIndex s.start 0 (s.step.getD 1) N)
      (clampIndex s.stop (N : Int) (s.step.getD 1) N) (s.step.getD 1),
      (List.range N).getD x.toNat 0 = x.toNat := by
    intro x hx
    obtain ⟨hx0, hxN⟩ := hmem x hx
    have htn : x.toNat < N := by omega
    rw [List.getD_eq_getElem?_getD, List.getElem?_eq_getElem (by simpa using htn),
      List.getElem_range]
    rfl
  rw [← hFeq, List.map_congr_left hgd]
  constructor
  · rw [List.Sorted, List.pairwise_map]
    apply List.Pairwise.imp_of_mem (R := (· < ·))
    · intro a b ha hb hab
      have := (hmem a ha).1
      omega
    · exact rangeList_sorted _ _ _ hst
  · intro f hf
    rw [List.mem_map] at hf
    obtain ⟨x, hx, rfl⟩ := hf
    obtain ⟨hx1, hx2⟩ := hmem x hx
    omega

theorem diffs_map_ofNat_pos : ∀ (u : List Nat), u.Sorted (· < ·) →
    ∀ x ∈ diffs (u.map Int.ofNat), 0 < x := by
  intro u
  induction u with
  | nil => intro _ x hx; cases hx
  | cons a t ih =>
    intro hs x hx
    cases t with
    | nil => cases hx
    | cons b t' =>
      rw [List.map_cons, List.map_cons, diffs_cons_cons, ← List.map_cons] at hx
      rcases List.mem_cons.mp hx with rfl | hx'
      · have hab : a < b := List.rel_of_sorted_cons hs b (List.mem_cons_self b t')
        show (0 : Int) < (b : Int) - (a : Int)
        omega
      · exact ih hs.tail x hx'

theorem dedup_le_one_all_eq {l : List Int} (h : ¬ 1 < l.dedup.length) :
    ∀ x ∈ l, x = l.headD 0 := by
  intro x hx
  cases hd : l.dedup with
  | nil =>
    rw [List.dedup_eq_nil] at hd
    rw [hd] at hx
    cases hx
  | cons y ys =>
    cases ys with
    | nil =>
      have hxy : x = y := by
        have : x ∈ l.dedup := List.mem_dedup.mpr hx
        rw [hd] at this
        exact List.mem_singleton.mp this
      have hlne : l ≠ [] := by rintro rfl; cases hx
      obtain ⟨z, t, rfl⟩ := List.exists_cons_of_ne_nil hlne
      have hzy : z = y := by
        have : z ∈ (z :: t).dedup := List.mem_dedup.mpr (List.mem_cons_self z t)
        rw [hd] at this
        exact List.mem_singleton.mp this
      rw [List.headD_cons, hxy, hzy]
    | cons _ _ =>
      rw [hd] at h
      exact absurd (by simp) h

theorem getLastD_mem : ∀ (u : List Nat) (x : Nat), u ≠ [] → u.getLastD x ∈ u := by
  intro u
  induction u with
  | nil => intro x h; exact absurd rfl h
  | cons a t ih =>
    intro x _
    rw [List.getLastD_cons]
    cases t with
    | nil => exact List.mem_cons_self a []
    | cons b t' => exact List.mem_cons_of_mem a (ih a (by simp))

theorem indices_eval_pos (b e st len : Int)
    (hst : 0 < st) (hlen : 0 ≤ len) (hb0 : 0 ≤ b) (hbd : b ≤ len)
    (he0 : 0 ≤ e) (hed : e ≤ len) :
    PySlice.indices ⟨some b, some e, some st⟩ len = .ok (b, e, st) := by
  simp only [PySlice.indices, Option.getD_some]
  rw [if_neg (by omega), if_neg (by omega), if_neg (by omega), if_neg (by omega)]
  rw [clampIndex_eval b _ st len hb0 hbd (by omega),
    clampIndex_eval e _ st len he0 hed (by omega)]

theorem indices_eval_none (b e len : Int)
    (hlen : 0 ≤ len) (hb0 : 0 ≤ b) (hbd : b ≤ len) (he0 : 0 ≤ e) (hed : e ≤ len) :
    PySlice.indices ⟨some b, some e, none⟩ len = .ok (b, e, 1) := by
  simp only [PySlice.indices, Option.getD_none]
  rw [if_neg (by omega), if_neg (by omega), if_neg (by omega), if_neg (by omega)]
  rw [clampIndex_eval b _ 1 len hb0 hbd (by omega),
    clampIndex_eval e _ 1 len he0 hed (by omega)]

theorem applySliceNat_eval (l : List Nat) (sl : PySlice) (b e st : Int)
    (hidx : sl.indices (Int.ofNat l.length) = .ok (b, e, st)) :
    applySliceNat l sl = .ok ((rangeList b e st).map (fun i => l.getD i.toNat 0)) := by
  unfold applySliceNat
  rw [hidx]

theorem getD_range_eval (dlen x : Nat) (hx : x < dlen) :
    (List.range dlen).getD x 0 = x := by
  rw [List.getD_eq_getElem?_getD, List.getElem?_eq_getElem (by simpa using hx),
    List.getElem_range]
  rfl

/-- A slice successfully produced by `ensure_slice` from a strictly sorted,
nonempty ordinal array selects exactly that array back out of
`np.arange(dlen)` whenever every ordinal is below `dlen`. -/
theorem ensure_slice_sorted_apply (u : List Nat) (dlen : Nat) (sl : PySlice)
    (hne : u ≠ []) (hs : u.Sorted (· < ·)) (hb : ∀ x ∈ u, x < dlen)
    (hok : ensure_slice_array ⟨true, [u.length], u.map Int.ofNat⟩ = .ok sl) :
    applySliceNat (List.range dlen) sl = .ok u := by
  obtain ⟨x, t, rfl⟩ := List.exists_cons_of_ne_nil hne
  have hxd : x < dlen := hb x (List.mem_cons_self x t)
  have hlenr : Int.ofNat (List.range dlen).length = (dlen : Int) := by
    rw [List.length_range]; rfl
  cases t with
  | nil =>
    have hsl : sl = ⟨some (Int.ofNat x), some (Int.ofNat x + 1), none⟩ := by
      have he : ensure_slice_array ⟨true, [([x] : List Nat).length], ([x] : List Nat).map Int.ofNat⟩ =
          .ok ⟨some (Int.ofNat x), some (Int.ofNat x + 1), none⟩ := rfl
      rw [he] at hok
      exact ((Except.ok.injEq _ _).mp hok).symm
    subst hsl
    have hidx : PySlice.indices ⟨some (Int.ofNat x), some (Int.ofNat x + 1), none⟩
        (Int.ofNat (List.range dlen).length) = .ok (Int.ofNat x, Int.ofNat x + 1, 1) := by
      rw [hlenr]
      exact indices_eval_none _ _ _ (by omega)
        (by simp only [Int.ofNat_eq_natCast]; omega)
        (by simp only [Int.ofNat_eq_natCast]; omega)
        (by simp only [Int.ofNat_eq_natCast]; omega)
        (by simp only [Int.ofNat_eq_natCast]; omega)
    rw [applySliceNat_eval _ _ _ _ _ hidx]
    have h1 : rangeLen (Int.ofNat x) (Int.ofNat x + 1) 1 = 1 := by
      unfold rangeLen
      rw [if_pos one_pos, show Int.ofNat x + 1 - Int.ofNat x + 1 - 1 = 1 from by ring,
        Int.ediv_one]
      rfl
    rw [rangeList_of_len _ _ _ 1 h1, apL_one, List.map_cons, List.map_nil]
    rw [show (Int.ofNat x).toNat = x from rfl, getD_range_eval dlen x hxd]
  | cons y t' =>
    have hsorted := hs
    have hdpos : ∀ z ∈ diffs ((x :: y :: t').map Int.ofNat), 0 < z :=
      diffs_map_ofNat_pos _ hsorted
    have hdne : diffs ((x :: y :: t').map Int.ofNat) =
        (Int.ofNat y - Int.ofNat x) :: diffs ((y :: t').map Int.ofNat) := by
      rw [List.map_cons, List.map_cons, diffs_cons_cons, ← List.map_cons]
    rw [ensure_slice_array] at hok
    rw [if_neg (by simp), if_neg (by simp), if_neg (by simp),
      if_neg (by simp)] at hok
    rw [if_neg (not_not_intro (Or.inl (by
      rw [List.all_eq_true]
      intro z hz
      exact decide_eq_true (hdpos z hz))))] at hok
    by_cases hded : 1 < (diffs ((x :: y :: t').map Int.ofNat)).dedup.length
    · rw [if_pos hded] at hok
      cases hok
    · rw [if_neg hded] at hok
      have hsl := ((Except.ok.injEq _ _).mp hok).symm
      have hd0mem : (diffs ((x :: y :: t').map Int.ofNat)).headD 0 ∈
          diffs ((x :: y :: t').map Int.ofNat) := by
        rw [hdne]
        exact List.mem_cons_self _ _
      have hd0pos : 0 < (diffs ((x :: y :: t').map Int.ofNat)).headD 0 := hdpos _ hd0mem
      have hconst := dedup_le_one_all_eq hded
      have hap := const_diffs_eq_apL ((diffs ((x :: y :: t').map Int.ofNat)).headD 0)
        ((x :: y :: t').map Int.ofNat) (by simp) hconst
      have hhead : ((x :: y :: t').map Int.ofNat).headD 0 = Int.ofNat x := by
        rw [List.map_cons]
        rfl
      have hlen2 : ((x :: y :: t').map Int.ofNat).length = t'.length + 1 + 1 := by
        simp
      have hap' : (x :: y :: t').map Int.ofNat =
          apL (Int.ofNat x) ((diffs ((x :: y :: t').map Int.ofNat)).headD 0)
            (t'.length + 1 + 1) := by
        rw [← hhead, ← hlen2]
        exact hap
      have hlast : ((x :: y :: t').map Int.ofNat).getLastD 0 =
          Int.ofNat x + ((diffs ((x :: y :: t').map Int.ofNat)).headD 0) *
            ((t'.length + 1 : Nat) : Int) := by
        conv_lhs => rw [hap']
        exact apL_getLastD _ (t'.length + 1) _ 0
      have hlastu : (x :: y :: t').getLastD 0 < dlen :=
        hb _ (getLastD_mem _ 0 (by simp))
      have hlastmap : ((x :: y :: t').map Int.ofNat).getLastD 0 =
          Int.ofNat ((x :: y :: t').getLastD 0) :=
        getLastD_map_ofNat (x :: y :: t') 0
      have hstopval : Int.ofNat x + ((diffs ((x :: y :: t').map Int.ofNat)).headD 0) *
          ((t'.length + 1 : Nat) : Int) = Int.ofNat ((x :: y :: t').getLastD 0) := by
        rw [← hlast, hlastmap]
      subst hsl
      rw [hhead, hlast, if_pos hd0pos, hstopval]
      have hidx : PySlice.indices
          ⟨some (Int.ofNat x), some (Int.ofNat ((x :: y :: t').getLastD 0) + 1),
            some ((diffs ((x :: y :: t').map Int.ofNat)).headD 0)⟩
          (Int.ofNat (List.range dlen).length) =
          .ok (Int.ofNat x, Int.ofNat ((x :: y :: t').getLastD 0) + 1,
            (diffs ((x :: y :: t').map Int.ofNat)).headD 0) := by
        rw [hlenr]
        exact indices_eval_pos _ _ _ _ hd0pos (by omega)
          (by simp only [Int.ofNat_eq_natCast]; omega)
          (by simp only [Int.ofNat_eq_natCast]; omega)
          (by simp only [Int.ofNat_eq_natCast]; omega)
          (by simp only [Int.ofNat_eq_natCast]; omega)
      rw [applySliceNat_eval _ _ _ _ _ hidx]
      have hrl := rangeLen_ap (Int.ofNat x) ((diffs ((x :: y :: t').map Int.ofNat)).headD 0)
        (t'.length + 1) (by omega)
      rw [if_pos hd0pos] at hrl
      rw [← hstopval, rangeList_of_len _ _ _ _ hrl, ← hap']
      rw [List.map_map]
      have hfinal : ∀ z ∈ x :: y :: t',
          ((fun i : Int => (List.range dlen).getD i.toNat 0) ∘ Int.ofNat) z = id z := by
        intro z hz
        show (List.range dlen).getD (Int.ofNat z).toNat 0 = z
        rw [show (Int.ofNat z).toNat = z from rfl]
        exact getD_range_eval dlen z (hb z hz)
      rw [List.map_congr_left hfinal, List.map_id]

theorem uniqueAxes_length (shape F : List Nat) :
    (uniqueAxes shape F).length = shape.length := by
  simp [uniqueAxes, unraveledAxes]

theorem uniqueAxes_getElem (shape F : List Nat) (k : Nat)
    (h : k < (uniqueAxes shape F).length) :
    (uniqueAxes shape F)[k] = npUnique ((F.map (unravel shape)).map (fun c => c.getD k 0)) := by
  unfold uniqueAxes unraveledAxes
  rw [List.getElem_map, List.getElem_map, List.getElem_range]

theorem uniqueAxes_spec (shape F : List Nat) (hFb : ∀ f ∈ F, f < shape.prod) :
    List.Forall₂ (fun d u => (∀ x ∈ u, x < d) ∧ u.Sorted (· < ·)) shape (uniqueAxes shape F) := by
  rw [List.forall₂_iff_get]
  refine ⟨(uniqueAxes_length shape F).symm, ?_⟩
  intro i h₁ h₂
  rw [List.get_eq_getElem, List.get_eq_getElem, uniqueAxes_getElem shape F i h₂]
  constructor
  · intro x hx
    rw [npUnique_mem, List.mem_map] at hx
    obtain ⟨c, hc, rfl⟩ := hx
    rw [List.mem_map] at hc
    obtain ⟨f, hf, rfl⟩ := hc
    have hfa : List.Forall₂ (· < ·) (unravel shape f) shape := unravel_lt shape f (hFb f hf)
    have hlen := hfa.length_eq
    have hgi : i < (unravel shape f).length := by omega
    rw [List.getD_eq_getElem _ _ hgi]
    have hpt := (List.forall₂_iff_get.mp hfa).2 i hgi h₁
    rw [List.get_eq_getElem, List.get_eq_getElem] at hpt
    exact hpt
  · exact npUnique_sorted _

theorem coords_mem_cartProd (shape F : List Nat) (f : Nat) (hf : f ∈ F)
    (_hFb : ∀ f ∈ F, f < shape.prod) :
    unravel shape f ∈ cartProd (uniqueAxes shape F) := by
  rw [cartProd_mem_iff, List.forall₂_iff_get]
  refine ⟨by rw [unravel_length, uniqueAxes_length], ?_⟩
  intro i h₁ h₂
  rw [List.get_eq_getElem, List.get_eq_getElem, uniqueAxes_getElem shape F i h₂]
  rw [npUnique_mem]
  apply List.mem_map.mpr
  refine ⟨unravel shape f, List.mem_map.mpr ⟨f, hf, rfl⟩, ?_⟩
  rw [List.getD_eq_getElem _ _ h₁]

/-- C1 amended: for a slice with nonnegative (or omitted) step selecting at
least one flat trace ordinal, whenever `_get_many` succeeds (each per-axis
unique coordinate set converts to a slice), the recipe's length equals the
number of selected ordinals, and extracting the recipe's positions from the
flattened bounding-box read reproduces, in order, the gather of the
selected flat ordinals. -/
theorem st_slice_spec (shape : List Nat) (s : PySlice) (A : Nat → Int)
    (F : List Nat) (bbox : List PySlice) (recipe : List Nat) (flat : List Int)
    (hstep : s.step = none ∨ ∃ k, s.step = some k ∧ 0 < k)
    (hF : applySliceNat (List.range shape.prod) s = .ok F)
    (hne : F ≠ [])
    (hok : stGetMany shape s = .ok (bbox, recipe))
    (hread : boxRead A shape bbox = .ok flat) :
    recipe.length = F.length ∧
    recipe.map (fun i => flat.getD i 0) = F.map A := by
  obtain ⟨hFs, hFb⟩ := applySlice_range_pos shape.prod s F hstep hF
  have hok' : (match mapE (fun u => ensure_slice_array ⟨true, [u.length], u.map Int.ofNat⟩)
      (uniqueAxes shape F) with
    | .error er => (.error er : Except SliceErr (List PySlice × List Nat))
    | .ok bb => .ok (bb, stRecipe shape F)) = .ok (bbox, recipe) := by
    rw [← hok]
    unfold stGetMany
    rw [hF]
  cases hmE : mapE (fun u => ensure_slice_array ⟨true, [u.length], u.map Int.ofNat⟩)
      (uniqueAxes shape F) with
  | error er => rw [hmE] at hok'; cases hok'
  | ok bb =>
    rw [hmE] at hok'
    have hpair := (Except.ok.injEq _ _).mp hok'
    have hbbx : bb = bbox := congrArg Prod.fst hpair
    have hrec : stRecipe shape F = recipe := congrArg Prod.snd hpair
    subst hbbx
    have hfa := (mapE_ok_forall₂ _ _ _).mp hmE
    have hspec := uniqueAxes_spec shape F hFb
    -- each axis of the bounding box reads back exactly its unique set
    have hlen_bb : (uniqueAxes shape F).length = bb.length := hfa.length_eq
    have hlen_sh : shape.length = (uniqueAxes shape F).length :=
      (uniqueAxes_length shape F).symm
    have hzip_len : (shape.zip bb).length = shape.length := by
      rw [List.length_zip]
      omega
    have hsel : List.Forall₂ (fun p sel => applySliceNat (List.range p.1) p.2 = .ok sel)
        (shape.zip bb) (uniqueAxes shape F) := by
      rw [List.forall₂_iff_get]
      refine ⟨by omega, ?_⟩
      intro i h₁ h₂
      rw [List.get_eq_getElem, List.get_eq_getElem, List.getElem_zip]
      have hui := (List.forall₂_iff_get.mp hspec).2 i (by omega) h₂
      rw [List.get_eq_getElem, List.get_eq_getElem] at hui
      have hensure := (List.forall₂_iff_get.mp hfa).2 i h₂ (by omega)
      rw [List.get_eq_getElem, List.get_eq_getElem] at hensure
      apply ensure_slice_sorted_apply
      · rw [uniqueAxes_getElem shape F i h₂]
        apply npUnique_ne_nil
        intro hcontra
        rw [List.map_eq_nil_iff, List.map_eq_nil_iff] at hcontra
        exact hne hcontra
      · exact hui.2
      · exact hui.1
      · exact hensure
    have hreadval : boxRead A shape bb =
        .ok ((cartProd (uniqueAxes shape F)).map (fun c => A (ravel shape c))) := by
      unfold boxRead
      rw [(mapE_ok_forall₂ _ _ _).mpr hsel]
    have hflat : flat = (cartProd (uniqueAxes shape F)).map (fun c => A (ravel shape c)) := by
      rw [hreadval] at hread
      exact ((Except.ok.injEq _ _).mp hread).symm
    -- main combinatorial equality
    have hbnd : List.Forall₂ (fun d u => ∀ x ∈ u, x < d) shape (uniqueAxes shape F) :=
      hspec.imp (fun a b h => h.1)
    have hsortedBig : ((cartProd (uniqueAxes shape F)).map (ravel shape)).Sorted (· < ·) :=
      ravel_cartProd_sorted hspec
    have hcoords_map : (F.map (unravel shape)).map (ravel shape) = F := by
      rw [List.map_map]
      have : ∀ f ∈ F, (ravel shape ∘ unravel shape) f = id f := by
        intro f hf
        exact ravel_unravel shape f (hFb f hf)
      rw [List.map_congr_left this, List.map_id]
    have hFsubBig : ∀ f ∈ F, f ∈ (cartProd (uniqueAxes shape F)).map (ravel shape) := by
      intro f hf
      exact List.mem_map.mpr ⟨unravel shape f, coords_mem_cartProd shape F f hf hFb,
        ravel_unravel shape f (hFb f hf)⟩
    have hfilterN : ((cartProd (uniqueAxes shape F)).map (ravel shape)).filter
        (fun x => decide (x ∈ F)) = F :=
      sorted_filter_eq _ F hsortedBig hFs hFsubBig
    have hcomm : ((cartProd (uniqueAxes shape F)).filter
          (fun c => decide (c ∈ F.map (unravel shape)))).map (ravel shape) =
        ((cartProd (uniqueAxes shape F)).map (ravel shape)).filter
          (fun x => decide (x ∈ F)) := by
      apply filter_map_comm
      intro c hc
      rw [decide_eq_decide]
      constructor
      · intro hcc
        rw [← hcoords_map]
        exact List.mem_map.mpr ⟨c, hcc, rfl⟩
      · intro hrc
        have : ravel shape c ∈ (F.map (unravel shape)).map (ravel shape) := by
          rw [hcoords_map]
          exact hrc
        rw [List.mem_map] at this
        obtain ⟨c', hc', hcc'⟩ := this
        have hcb : List.Forall₂ (· < ·) c shape := forall₂_lt_of_mem_cartProd hbnd hc
        have hcb' : List.Forall₂ (· < ·) c' shape := by
          rw [List.mem_map] at hc'
          obtain ⟨f, hf, rfl⟩ := hc'
          exact unravel_lt shape f (hFb f hf)
        have : c' = c := by
          rw [← unravel_ravel shape c' hcb', ← unravel_ravel shape c hcb, hcc']
        rw [← this]
        exact hc'
    have hmain : (cartProd (uniqueAxes shape F)).filter
        (fun c => decide (c ∈ F.map (unravel shape))) = F.map (unravel shape) := by
      have h1 : (((cartProd (uniqueAxes shape F)).filter
          (fun c => decide (c ∈ F.map (unravel shape)))).map (ravel shape)).map
            (unravel shape) = ((F.map (unravel shape)).map (ravel shape)).map
            (unravel shape) := by
        rw [hcomm, hfilterN, hcoords_map]
      rw [List.map_map, List.map_map] at h1
      have h2 : ∀ c ∈ (cartProd (uniqueAxes shape F)).filter
          (fun c => decide (c ∈ F.map (unravel shape))),
          (unravel shape ∘ ravel shape) c = id c := by
        intro c hc
        have hcb := forall₂_lt_of_mem_cartProd hbnd (List.mem_filter.mp hc).1
        exact unravel_ravel shape c hcb
      have h3 : ∀ c ∈ F.map (unravel shape), (unravel shape ∘ ravel shape) c = id c := by
        intro c hc
        rw [List.mem_map] at hc
        obtain ⟨f, hf, rfl⟩ := hc
        exact unravel_ravel shape (unravel shape f) (unravel_lt shape f (hFb f hf))
      rw [List.map_congr_left h2, List.map_congr_left h3, List.map_id, List.map_id] at h1
      exact h1
    -- conclude
    have hrecipe_def : recipe = ((cartProd (uniqueAxes shape F)).enum.filter
        (fun p => decide (p.2 ∈ F.map (unravel shape)))).map (·.1) := by
      rw [← hrec]
      rfl
    constructor
    · have hlenx := enum_filter_length (fun c => decide (c ∈ List.map (unravel shape) F))
        (cartProd (uniqueAxes shape F))
      rw [hrecipe_def, hlenx, hmain, List.length_map]
    · rw [hrecipe_def, hflat]
      have hex := enum_filter_extract (fun c => A (ravel shape c))
        (fun c => decide (c ∈ F.map (unravel shape))) 0 (cartProd (uniqueAxes shape F))
      rw [hex, hmain, List.map_map]
      apply List.map_congr_left
      intro f hf
      show A (ravel shape (unravel shape f)) = A f
      rw [ravel_unravel shape f (hFb f hf)]

/-- C1 counterexample.  Two failures of the claim as stated: (a) on shape
`(2, 10)` the nonempty ascending selection `slice(0, 20, 7)` (flat ordinals
`[0, 7, 14]`) makes `_get_many` raise `MultiSliceError` instead of returning
a pair, because the axis-1 unique coordinates `[0, 4, 7]` are not a single
arithmetic progression; (b) on shape `(2, 2)` the negative-step slice
`slice(None, None, -1)` selects `[3, 2, 1, 0]` but the recipe extracts the
bounding-box cells in ascending order `[0, 1, 2, 3]`, not in the order the
slice enumerates them. -/
theorem st_slice_counterexample :
    applySliceNat (List.range (([2, 10] : List Nat).prod)) ⟨some 0, some 20, some 7⟩ =
      .ok [0, 7, 14] ∧
    stGetMany [2, 10] ⟨some 0, some 20, some 7⟩ = .error .multiSlice ∧
    applySliceNat (List.range (([2, 2] : List Nat).prod)) ⟨none, none, some (-1)⟩ =
      .ok [3, 2, 1, 0] ∧
    stGetMany [2, 2] ⟨none, none, some (-1)⟩ =
      .ok ([⟨some 0, some 2, some 1⟩, ⟨some 0, some 2, some 1⟩], [0, 1, 2, 3]) ∧
    boxRead (fun n => (n : Int)) [2, 2] [⟨some 0, some 2, some 1⟩, ⟨some 0, some 2, some 1⟩] =
      .ok [0, 1, 2, 3] ∧
    ([0, 1, 2, 3] : List Nat).map (fun i => ([0, 1, 2, 3] : List Int).getD i 0) ≠
      ([3, 2, 1, 0] : List Nat).map (fun n => (n : Int)) :=
  ⟨by decide, by decide, by decide, by decide, by decide, by decide⟩

/-- Witness for C1's amended claim: shape `(4, 3, 2)` with `slice(2, 9)` —
the bounding box encloses ordinals 0..11 and the recipe selects the 7 cells
2..8 in flat order (the spec's own scenario). -/
theorem st_slice_spec_witness :
    ([2, 3, 4, 5, 6, 7, 8] : List Nat).length = ([2, 3, 4, 5, 6, 7, 8] : List Nat).length ∧
    ([2, 3, 4, 5, 6, 7, 8] : List Nat).map
        (fun i => ([0, 1, 2, 3, 4, 5, 6, 7, 8, 9, 10, 11] : List Int).getD i 0) =
      ([2, 3, 4, 5, 6, 7, 8] : List Nat).map (fun n => (n : Int)) :=
  st_slice_spec [4, 3, 2] ⟨some 2, some 9, none⟩ (fun n => (n : Int))
    [2, 3, 4, 5, 6, 7, 8]
    [⟨some 0, some 2, some 1⟩, ⟨some 0, some 3, some 1⟩, ⟨some 0, some 2, some 1⟩]
    [2, 3, 4, 5, 6, 7, 8] [0, 1, 2, 3, 4, 5, 6, 7, 8, 9, 10, 11]
    (Or.inl rfl) (by decide) (by decide) (by decide) (by decide)

end TileDBSegy
